import Mathlib

/-!
Verification development for the rq2_mttu lag-detection and multi-hop
propagation engine (`src/bin/rqx2_rustsec_batch.rs`, `src/bin/rqx2_strict.rs`).

Modelling conventions:
* Timestamps (`chrono::DateTime<chrono::Utc>`) are modelled as integer seconds
  (`Int`); `chrono::Duration::num_days` truncates toward zero and is modelled
  by `Int.tdiv` with 86400 seconds per day.
* The external semver library (`semver::Version`, `semver::VersionReq`) is
  modelled abstractly: versions are a linearly ordered type `V`, requirements
  an arbitrary type `R`, and a `SemverLib V R` record supplies the library's
  `Version::parse`, `VersionReq::parse` and `VersionReq::matches` operations.
  Unparseable strings yield `none`, matching the source's use of `Result`.
* Rust `HashMap` grouping with arbitrary iteration order is modelled by
  grouping in first-appearance order of the key; the grouped computations in
  the source are insensitive to group order (outputs are per-group, and the
  strict detector additionally sorts its output by crate name).
* `HashMap<Version, DateTime>` (`fix_times`) is modelled as an association
  list `List (V × Int)`; iteration order is the list order.
-/

set_option linter.unusedVariables false

/-- `chrono::Duration::num_days` of a whole-second duration: truncating
division (toward zero) by 86400, as in Rust `i64` division. -/
def num_days (secs : Int) : Int := Int.tdiv secs 86400

/-- Abstract model of the external `semver` crate: version parsing,
requirement parsing, and the requirement-satisfaction test. -/
structure SemverLib (V R : Type) where
  parseVersion : String → Option V
  parseReq : String → Option R
  reqMatches : R → V → Bool

/-- One downstream dependency observation, as returned by
`query_all_downstream_details` (crate name, version string, publish time,
declared requirement string). -/
structure DownstreamVersionInfo where
  crate_name : String
  version : String
  created_at : Int
  dep_req : String
deriving DecidableEq

/-- Unicode-whitespace left trim on a character list (Rust `str::trim`,
left part). -/
def trimLeftChars (cs : List Char) : List Char := cs.dropWhile Char.isWhitespace

/-- Rust `str::trim` on a character list: drop whitespace at both ends. -/
def trimChars (cs : List Char) : List Char :=
  ((trimLeftChars cs).reverse.dropWhile Char.isWhitespace).reverse

/-- `s.split(',').next().unwrap_or(s)`: the prefix of `s` before the first
comma (the whole string when there is no comma). -/
def untilComma (cs : List Char) : List Char := cs.takeWhile (fun c => !(c == ','))

/-- The comparison/range operator characters stripped by
`estimate_min_version`'s `trim_start_matches`. -/
def isReqOpChar (c : Char) : Bool :=
  c == '^' || c == '~' || c == '=' || c == '>' || c == '<' || c == ' '

/-- `estimate_min_version` (rqx2_rustsec_batch.rs): heuristic lower-bound
extractor. Trims the requirement, keeps the part before the first comma,
strips leading `^ ~ = > <` and spaces, then retries a full version parse
after appending missing `.0` components. -/
def estimate_min_version {V R : Type} (lib : SemverLib V R) (req_str : String) : Option V :=
  let s1 := trimChars req_str.data
  let s2 := trimChars (untilComma s1)
  let s3 := s2.dropWhile isReqOpChar
  let str := String.mk s3
  match lib.parseVersion str with
  | some v => some v
  | none =>
    match lib.parseVersion (str ++ ".0") with
    | some v => some v
    | none =>
      match lib.parseVersion (str ++ ".0.0") with
      | some v => some v
      | none => none

/-- The history sort comparator used throughout the source:
`(created_at, version-string)` lexicographically (`sort_by` with
`created_at.cmp(..).then_with(|| version.cmp(..))`). -/
def obsLeB (a b : DownstreamVersionInfo) : Bool :=
  decide (a.created_at < b.created_at) ||
    (decide (a.created_at = b.created_at) && decide (a.version ≤ b.version))

/-- Stable insertion of one observation into an already sorted history. -/
def insertObs (x : DownstreamVersionInfo) :
    List DownstreamVersionInfo → List DownstreamVersionInfo
  | [] => [x]
  | y :: ys => if obsLeB x y then x :: y :: ys else y :: insertObs x ys

/-- Stable sort of a downstream history by `(created_at, version)`, modelling
the source's `history.sort_by(..)`. -/
def sortObs : List DownstreamVersionInfo → List DownstreamVersionInfo
  | [] => []
  | x :: xs => insertObs x (sortObs xs)

/-- First-appearance deduplication of a key list (helper for modelling
`HashMap` grouping deterministically). -/
def dedupFirstAux : List String → List String → List String
  | [], _ => []
  | n :: rest, seen =>
    if n ∈ seen then dedupFirstAux rest seen else n :: dedupFirstAux rest (n :: seen)

/-- Keys of a list in first-appearance order, without duplicates. -/
def dedupFirst (l : List String) : List String := dedupFirstAux l []

/-- Grouping of downstream rows by `crate_name`, modelling the source's
`by_crate: HashMap<&str, Vec<&DownstreamVersionInfo>>` (each group keeps the
input order of its rows; group order is first appearance). -/
def groupByCrate (rows : List DownstreamVersionInfo) :
    List (String × List DownstreamVersionInfo) :=
  (dedupFirst (rows.map (·.crate_name))).map
    (fun n => (n, rows.filter (fun r => r.crate_name == n)))

/-- `StrictLagRow` of the source. `matched_fix_version` holds the matched
version value itself (the source stores its `to_string()` rendering). -/
structure StrictLagRow (V : Type) where
  downstream_crate : String
  downstream_version : String
  downstream_time : Int
  lag_days : Int
  original_req : String
  fixed_req : String
  matched_fix_version : V
  matched_fix_time : Int
deriving DecidableEq

/-- Whether a fixed version `fv` matches a candidate-fix observation: direct
range match, or the `estimate_min_version` heuristic yields a minimum
`>= fv` (the `is_match` computation inside
`compute_strict_lags_for_target`). -/
def strict_pair_matches {V R : Type} [LinearOrder V] (lib : SemverLib V R)
    (req : R) (item : DownstreamVersionInfo) (fv : V) : Bool :=
  lib.reqMatches req fv ||
    (match estimate_min_version lib item.dep_req with
     | some min_v => decide (fv ≤ min_v)
     | none => false)

/-- A `(fixed_version, fix_time)` pair is a candidate match for an
observation when its fix time is not after the observation's publish time
(the `if *ftime > item.created_at { continue; }` filter) and it matches
directly or via the heuristic. -/
def strict_candidate_matches {V R : Type} [LinearOrder V] (lib : SemverLib V R)
    (req : R) (item : DownstreamVersionInfo) (p : V × Int) : Bool :=
  decide (p.2 ≤ item.created_at) && strict_pair_matches lib req item p.1

/-- The `best_match` fold of `compute_strict_lags_for_target`: scan all
`(fixed_version, fix_time)` pairs, keep the candidate with the strictly
earliest fix time (first encountered wins ties). -/
def strict_best_match {V R : Type} [LinearOrder V] (lib : SemverLib V R)
    (fix_times : List (V × Int)) (req : R) (item : DownstreamVersionInfo) :
    Option (V × Int) :=
  fix_times.foldl
    (fun best p =>
      if strict_candidate_matches lib req item p then
        match best with
        | none => some p
        | some q => if p.2 < q.2 then some p else some q
      else best)
    none

/-- The per-crate linear scan of `compute_strict_lags_for_target`, with the
`ever_affected` flag and `last_vuln_req` option threaded as arguments.
Returns the emitted row (if any) and the number of negative-lag candidates
that were skipped (`skipped_negative`). -/
def strictScanLoop {V R : Type} [LinearOrder V] (lib : SemverLib V R)
    (fix_times : List (V × Int)) (vuln_versions : List V) (crate : String) :
    List DownstreamVersionInfo → Bool → Option String →
    Option (StrictLagRow V) × Nat
  | [], _, _ => (none, 0)
  | item :: rest, ever_affected, last_vuln_req =>
    match lib.parseReq item.dep_req with
    | none => strictScanLoop lib fix_times vuln_versions crate rest ever_affected last_vuln_req
    | some req =>
      if vuln_versions.any (fun v => lib.reqMatches req v) then
        strictScanLoop lib fix_times vuln_versions crate rest true (some item.dep_req)
      else if ever_affected then
        match strict_best_match lib fix_times req item with
        | none => strictScanLoop lib fix_times vuln_versions crate rest ever_affected last_vuln_req
        | some (mv, mt) =>
          match last_vuln_req with
          | none => strictScanLoop lib fix_times vuln_versions crate rest ever_affected none
          | some original_req =>
            let lag_days := num_days (item.created_at - mt)
            if lag_days < 0 then
              let r := strictScanLoop lib fix_times vuln_versions crate rest ever_affected none
              (r.1, r.2 + 1)
            else
              (some ⟨crate, item.version, item.created_at, lag_days,
                     original_req, item.dep_req, mv, mt⟩, 0)
      else
        strictScanLoop lib fix_times vuln_versions crate rest ever_affected last_vuln_req

/-- Stable insertion for the final `outputs.sort_by(downstream_crate)`. -/
def insertRow {V : Type} (x : StrictLagRow V) :
    List (StrictLagRow V) → List (StrictLagRow V)
  | [] => [x]
  | y :: ys =>
    if decide (x.downstream_crate ≤ y.downstream_crate) then x :: y :: ys
    else y :: insertRow x ys

/-- Stable sort of strict rows by downstream crate name. -/
def sortRows {V : Type} : List (StrictLagRow V) → List (StrictLagRow V)
  | [] => []
  | x :: xs => insertRow x (sortRows xs)

/-- `compute_strict_lags_for_target`: group the downstream history by crate,
sort each group by `(created_at, version)`, run the strict scan, collect the
skipped-negative diagnostic count, and sort the emitted rows by crate name. -/
def compute_strict_lags_for_target {V R : Type} [LinearOrder V] (lib : SemverLib V R)
    (fix_times : List (V × Int)) (vuln_versions : List V)
    (downstream : List DownstreamVersionInfo) : List (StrictLagRow V) × Nat :=
  let groups := groupByCrate downstream
  let results := groups.map
    (fun g => strictScanLoop lib fix_times vuln_versions g.1 (sortObs g.2) false none)
  (sortRows (results.filterMap (·.1)), (results.map (·.2)).sum)

/-- `AdoptionEvent` of the source (downstream version parsed as a semantic
version). -/
structure AdoptionEvent (V : Type) where
  downstream_crate : String
  downstream_version : V
  downstream_time : Int
  lag_days : Int
  dep_req : String
deriving DecidableEq

/-- `min_allowed` inside `compute_adoption_events_for_target`. -/
def min_allowed {V R : Type} (lib : SemverLib V R) (dep_req : String) : Option V :=
  estimate_min_version lib dep_req

/-- `is_ever_affected`: the estimated minimum allowed version exists and is
strictly below the carrier's fix version. -/
def is_ever_affected {V R : Type} [LinearOrder V] (lib : SemverLib V R)
    (dep_req : String) (fix_version : V) : Bool :=
  match min_allowed lib dep_req with
  | none => false
  | some min_v => decide (min_v < fix_version)

/-- `is_explicitly_fixed`: the estimated minimum allowed version exists and is
at or above the carrier's fix version. -/
def is_explicitly_fixed {V R : Type} [LinearOrder V] (lib : SemverLib V R)
    (dep_req : String) (fix_version : V) : Bool :=
  match min_allowed lib dep_req with
  | none => false
  | some min_v => decide (fix_version ≤ min_v)

/-- The `last_before` scan of `compute_adoption_events_for_target`: walk the
sorted history, remember the last observation strictly before the fix time,
and stop at the first observation at or after it. -/
def lastBeforeFix (fix_time : Int) :
    List DownstreamVersionInfo → Option DownstreamVersionInfo
  | [] => none
  | item :: rest =>
    if item.created_at < fix_time then
      match lastBeforeFix fix_time rest with
      | some x => some x
      | none => some item
    else none

/-- The fix-scan of `compute_adoption_events_for_target`: skip observations
before the fix time; at the first explicitly-fixed observation, emit an event
if its version string parses, otherwise give up on this crate (`break`). -/
def adoptionScanFix {V R : Type} [LinearOrder V] (lib : SemverLib V R)
    (fix_version : V) (fix_time : Int) (crate : String) :
    List DownstreamVersionInfo → Option (AdoptionEvent V)
  | [] => none
  | item :: rest =>
    if item.created_at < fix_time then
      adoptionScanFix lib fix_version fix_time crate rest
    else if is_explicitly_fixed lib item.dep_req fix_version then
      match lib.parseVersion item.version with
      | none => none
      | some v =>
        some ⟨crate, v, item.created_at, num_days (item.created_at - fix_time), item.dep_req⟩
    else adoptionScanFix lib fix_version fix_time crate rest

/-- The per-crate body of `compute_adoption_events_for_target`. -/
def adoptionEventForGroup {V R : Type} [LinearOrder V] (lib : SemverLib V R)
    (fix_version : V) (fix_time : Int)
    (g : String × List DownstreamVersionInfo) : Option (AdoptionEvent V) :=
  let history := sortObs g.2
  match lastBeforeFix fix_time history with
  | none => none
  | some last_before =>
    if is_ever_affected lib last_before.dep_req fix_version then
      adoptionScanFix lib fix_version fix_time g.1 history
    else none

/-- `compute_adoption_events_for_target`: the looser propagation detector.
One event at most per downstream crate. -/
def compute_adoption_events_for_target {V R : Type} [LinearOrder V] (lib : SemverLib V R)
    (fix_version : V) (fix_time : Int)
    (downstream : List DownstreamVersionInfo) : List (AdoptionEvent V) :=
  (groupByCrate downstream).filterMap (adoptionEventForGroup lib fix_version fix_time)

/-- A propagation work item (`Carrier` of the source). -/
structure Carrier (V : Type) where
  crate_name : String
  fix_version : V
  fix_time : Int
  hop : Nat
deriving DecidableEq

/-- One record written to the propagation events sink: the hop number and the
event's key fields, modelling one `propagation_events` CSV row. -/
structure PropEventRec where
  hop : Nat
  downstream_crate : String
  downstream_time : Int
  lag_days : Int
  dep_req : String
deriving DecidableEq

/-- The per-advisory propagation loop state: the frontier queue of carriers,
the `best_seen` map (association list keyed by crate name), the emitted event
log, a ghost log of every enqueue `(crate, hop, time)` (recorded for
specification only; it influences nothing), and whether the run aborted with
a `lag_days mismatch` consistency fault. -/
structure PropState (V : Type) where
  queue : List (Carrier V)
  best_seen : List (String × Nat × Int)
  events : List PropEventRec
  pushLog : List (String × Nat × Int)
  error : Bool
deriving DecidableEq

/-- Lookup in the `best_seen` association list. -/
def lookupBS : List (String × Nat × Int) → String → Option (Nat × Int)
  | [], _ => none
  | (k, r) :: rest, key => if k = key then some r else lookupBS rest key

/-- `HashMap::insert` on the `best_seen` association list: replace the
existing binding or append a new one. -/
def insertBS : List (String × Nat × Int) → String → Nat × Int →
    List (String × Nat × Int)
  | [], key, r => [(key, r)]
  | (k, r') :: rest, key, r =>
    if k = key then (key, r) :: rest else (k, r') :: insertBS rest key r

/-- `carrier.hop >= max_hops` when a hop limit is configured. -/
def hopLimitReached (maxHops : Option Nat) (hop : Nat) : Bool :=
  match maxHops with
  | none => false
  | some h => decide (h ≤ hop)

/-- `next_hop > max_hops` when a hop limit is configured. -/
def hopLimitExceeded (maxHops : Option Nat) (next_hop : Nat) : Bool :=
  match maxHops with
  | none => false
  | some h => decide (h < next_hop)

/-- `can_expand`: no hop limit, or the hop of the would-be new carrier is
strictly below the limit. -/
def canExpand (maxHops : Option Nat) (hop : Nat) : Bool :=
  match maxHops with
  | none => true
  | some h => decide (hop < h)

/-- `should_push`: no `best_seen` record yet, or the new `(hop, time)` is
strictly better — smaller hop, or equal hop and strictly earlier time. -/
def shouldPush (best_seen : List (String × Nat × Int)) (key : String)
    (next_hop : Nat) (t : Int) : Bool :=
  match lookupBS best_seen key with
  | none => true
  | some (seen_hop, seen_time) =>
    decide (next_hop < seen_hop) || (decide (next_hop = seen_hop) && decide (t < seen_time))

/-- Enqueue a carrier: update `best_seen`, push to the back of the queue, and
append to the ghost push log. -/
def pushCarrier {V : Type} (st : PropState V) (key : String) (v : V) (t : Int)
    (hop : Nat) : PropState V :=
  { st with
    best_seen := insertBS st.best_seen key (hop, t),
    queue := st.queue ++ [⟨key, v, t, hop⟩],
    pushLog := st.pushLog ++ [(key, hop, t)] }

/-- Processing of the adoption events of one popped carrier (the inner
`for ev in events` loop): recompute and check `lag_days` (a mismatch is a
fatal consistency fault that aborts the run), log the event, and enqueue the
downstream crate when `can_expand` and `should_push` allow it. -/
def propExpand {V : Type} [LinearOrder V] (maxHops : Option Nat) (fix_time : Int)
    (next_hop : Nat) : List (AdoptionEvent V) → PropState V → PropState V
  | [], st => st
  | ev :: rest, st =>
    if num_days (ev.downstream_time - fix_time) ≠ ev.lag_days then
      { st with error := true }
    else
      let st1 := { st with events := st.events ++
        [⟨next_hop, ev.downstream_crate, ev.downstream_time, ev.lag_days, ev.dep_req⟩] }
      if canExpand maxHops next_hop then
        if shouldPush st1.best_seen ev.downstream_crate next_hop ev.downstream_time then
          propExpand maxHops fix_time next_hop rest
            (pushCarrier st1 ev.downstream_crate ev.downstream_version ev.downstream_time next_hop)
        else propExpand maxHops fix_time next_hop rest st1
      else propExpand maxHops fix_time next_hop rest st1

/-- One iteration of the propagation while-loop: pop the front carrier; drop
it unexpanded if its hop is at or past the configured limit; otherwise fetch
its downstream history, compute adoption events, and process them. The
downstream-history store (reached through the cache) is modelled by the pure
snapshot function `hist`. -/
def propStep {V R : Type} [LinearOrder V] (lib : SemverLib V R)
    (hist : String → List DownstreamVersionInfo) (maxHops : Option Nat)
    (st : PropState V) : PropState V :=
  match st.queue with
  | [] => st
  | carrier :: rest =>
    if hopLimitReached maxHops carrier.hop then { st with queue := rest }
    else
      let next_hop := carrier.hop + 1
      if hopLimitExceeded maxHops next_hop then { st with queue := rest }
      else
        let events := compute_adoption_events_for_target lib carrier.fix_version
          carrier.fix_time (hist carrier.crate_name)
        propExpand maxHops carrier.fix_time next_hop events { st with queue := rest }

/-- Fuelled iteration of the propagation loop; it stops when the queue is
empty (normal termination) or the run aborted with a consistency fault. -/
def propRun {V R : Type} [LinearOrder V] (lib : SemverLib V R)
    (hist : String → List DownstreamVersionInfo) (maxHops : Option Nat) :
    Nat → PropState V → PropState V
  | 0, st => st
  | n + 1, st =>
    if st.queue = [] ∨ st.error then st
    else propRun lib hist maxHops n (propStep lib hist maxHops st)

/-- The fresh per-advisory propagation state. -/
def initPropState (V : Type) : PropState V := ⟨[], [], [], [], false⟩

/-- Seeding of one strict lag row: re-check `lag_days` (a mismatch aborts
the run), write the row to the event log at hop 1, and enqueue it as a hop-1
carrier when `can_expand` holds and its downstream version string parses. -/
def seedStep {V R : Type} [LinearOrder V] (lib : SemverLib V R) (maxHops : Option Nat)
    (st : PropState V) (r : StrictLagRow V) : PropState V :=
  if st.error then st
  else if num_days (r.downstream_time - r.matched_fix_time) ≠ r.lag_days then
    { st with error := true }
  else
    let st1 := { st with events := st.events ++
      [⟨1, r.downstream_crate, r.downstream_time, r.lag_days, r.fixed_req⟩] }
    if canExpand maxHops 1 then
      match lib.parseVersion r.downstream_version with
      | some v => pushCarrier st1 r.downstream_crate v r.downstream_time 1
      | none => st1
    else st1

/-- Seeding of the propagation loop from the advisory's strict lag rows. -/
def seedFromStrictRows {V R : Type} [LinearOrder V] (lib : SemverLib V R)
    (maxHops : Option Nat) (rows : List (StrictLagRow V)) : PropState V :=
  rows.foldl (seedStep lib maxHops) (initPropState V)

/-- A whole strict-seeded propagation run for one advisory: seed from the
strict rows, then iterate the loop with the given fuel. -/
def runPropagation {V R : Type} [LinearOrder V] (lib : SemverLib V R)
    (hist : String → List DownstreamVersionInfo) (maxHops : Option Nat)
    (rows : List (StrictLagRow V)) (fuel : Nat) : PropState V :=
  propRun lib hist maxHops fuel (seedFromStrictRows lib maxHops rows)

/-- `ConstraintBreakdown` counters of the source. -/
structure ConstraintBreakdown where
  downstream_crates_with_history : Nat
  affected_edges : Nat
  locked_out_edges : Nat
  break_rate_percent : Nat
  affected_req_exact_pin : Nat
  affected_req_has_upper_bound : Nat
  affected_req_caret_0x : Nat
  affected_req_other : Nat
  unknown_req_unparseable : Nat
deriving DecidableEq

/-- The all-zero `ConstraintBreakdown::default()`. -/
def emptyCB : ConstraintBreakdown := ⟨0, 0, 0, 0, 0, 0, 0, 0, 0⟩

/-- `ReqShape` of `compute_constraint_breakdown`. -/
inductive ReqShape where
  | ExactPin
  | HasUpperBound
  | Caret0x
  | Other
deriving DecidableEq

/-- `classify_req_shape`: textual shape of a requirement (checked in source
order: leading `=`, then leading `^0.`, then a `<` anywhere). -/
def classify_req_shape (s : String) : ReqShape :=
  let t := trimChars s.data
  if ['='].isPrefixOf t then ReqShape.ExactPin
  else if ['^', '0', '.'].isPrefixOf t then ReqShape.Caret0x
  else if t.contains '<' then ReqShape.HasUpperBound
  else ReqShape.Other

/-- The `process` closure of `compute_constraint_breakdown`: classify one
crate's retained last-before-fix observation. -/
def cbProcess {V R : Type} (lib : SemverLib V R) (vuln_versions fixed_versions : List V) :
    Option DownstreamVersionInfo → ConstraintBreakdown → ConstraintBreakdown
  | none, c => c
  | some row, c =>
    let c1 := { c with downstream_crates_with_history := c.downstream_crates_with_history + 1 }
    match lib.parseReq row.dep_req with
    | none => { c1 with unknown_req_unparseable := c1.unknown_req_unparseable + 1 }
    | some req =>
      if vuln_versions.any (fun v => lib.reqMatches req v) then
        let c2 := { c1 with affected_edges := c1.affected_edges + 1 }
        let c3 :=
          match classify_req_shape row.dep_req with
          | ReqShape.ExactPin =>
            { c2 with affected_req_exact_pin := c2.affected_req_exact_pin + 1 }
          | ReqShape.HasUpperBound =>
            { c2 with affected_req_has_upper_bound := c2.affected_req_has_upper_bound + 1 }
          | ReqShape.Caret0x =>
            { c2 with affected_req_caret_0x := c2.affected_req_caret_0x + 1 }
          | ReqShape.Other =>
            { c2 with affected_req_other := c2.affected_req_other + 1 }
        if fixed_versions.any (fun v => lib.reqMatches req v) then c3
        else { c3 with locked_out_edges := c3.locked_out_edges + 1 }
      else c1

/-- The row loop of `compute_constraint_breakdown`, with the `current` crate
name and retained `last_before` observation threaded as arguments; on a crate
change (or at the end) the retained observation is processed and the
retention reset (`last_before.take()`). -/
def cbLoop {V R : Type} (lib : SemverLib V R) (vuln_versions fixed_versions : List V)
    (fix_time : Int) :
    List DownstreamVersionInfo → Option String → Option DownstreamVersionInfo →
    ConstraintBreakdown → ConstraintBreakdown
  | [], _, last_before, c => cbProcess lib vuln_versions fixed_versions last_before c
  | row :: rest, current, last_before, c =>
    match current with
    | none =>
      cbLoop lib vuln_versions fixed_versions fix_time rest (some row.crate_name)
        (if row.created_at < fix_time then some row else last_before) c
    | some name =>
      if name = row.crate_name then
        cbLoop lib vuln_versions fixed_versions fix_time rest (some name)
          (if row.created_at < fix_time then some row else last_before) c
      else
        cbLoop lib vuln_versions fixed_versions fix_time rest (some row.crate_name)
          (if row.created_at < fix_time then some row else none)
          (cbProcess lib vuln_versions fixed_versions last_before c)

/-- `compute_constraint_breakdown`: per-crate classification of the latest
requirement observation strictly before the fix time, plus the final
break-rate percentage. -/
def compute_constraint_breakdown {V R : Type} (lib : SemverLib V R) (fix_time : Int)
    (vuln_versions fixed_versions : List V)
    (downstream : List DownstreamVersionInfo) : ConstraintBreakdown :=
  let c := cbLoop lib vuln_versions fixed_versions fix_time downstream none none emptyCB
  if c.affected_edges > 0 then
    { c with break_rate_percent := c.locked_out_edges * 100 / c.affected_edges }
  else c

/-- Stable insertion for sorting version lists (`vuln.sort()`). -/
def insertV {V : Type} [LinearOrder V] (x : V) : List V → List V
  | [] => [x]
  | y :: ys => if x ≤ y then x :: y :: ys else y :: insertV x ys

/-- Sort of a version list by the library's total order. -/
def sortV {V : Type} [LinearOrder V] : List V → List V
  | [] => []
  | x :: xs => insertV x (sortV xs)

/-- `identify_vuln_versions`: published versions matched by neither the
parseable patched requirements nor the parseable unaffected requirements;
all parseable published versions when both requirement sets are empty. -/
def identify_vuln_versions {V R : Type} [LinearOrder V] (lib : SemverLib V R)
    (all_versions : List String) (patched unaffected : List String) : List V :=
  if patched.isEmpty && unaffected.isEmpty then
    sortV (all_versions.filterMap lib.parseVersion)
  else
    let patched_reqs := patched.filterMap lib.parseReq
    let unaffected_reqs := unaffected.filterMap lib.parseReq
    sortV (all_versions.filterMap (fun s =>
      match lib.parseVersion s with
      | none => none
      | some v =>
        if !(patched_reqs.any (fun req => lib.reqMatches req v)) &&
            !(unaffected_reqs.any (fun req => lib.reqMatches req v)) then
          some v
        else none))

/-- `severity_from_cvss_score`, with the `f64` score modelled as an exact
rational (the source's non-finite guard has no rational counterpart; every
`ℚ` is finite). -/
def severity_from_cvss_score (score : ℚ) : String :=
  if score ≤ 0 then "INFO"
  else if score < 4 then "LOW"
  else if score < 7 then "MEDIUM"
  else if score < 9 then "HIGH"
  else "CRITICAL"

/-- The mutable parse state of `cvss31_base_score_from_vector`: one optional
weight per CVSS v3 base metric. -/
structure CvssParseState where
  av : Option ℚ
  ac : Option ℚ
  pr_u : Option ℚ
  pr_c : Option ℚ
  ui : Option ℚ
  scope : Option Char
  c : Option ℚ
  i : Option ℚ
  a : Option ℚ

/-- All metrics initially unset. -/
def initCvssParseState : CvssParseState :=
  ⟨none, none, none, none, none, none, none, none, none⟩

/-- Split a character list on a separator character (Rust `str::split`). -/
def splitOnChar (sep : Char) : List Char → List (List Char)
  | [] => [[]]
  | ch :: rest =>
    if ch == sep then [] :: splitOnChar sep rest
    else
      match splitOnChar sep rest with
      | [] => [[ch]]
      | g :: gs => (ch :: g) :: gs

/-- `part.splitn(2, ':')` followed by the two `it.next()?`: the key before
the first colon and the remainder after it; `none` when the part has no
colon. -/
def splitFirstColon : List Char → Option (List Char × List Char)
  | [] => none
  | ch :: rest =>
    if ch == ':' then some ([], rest)
    else
      match splitFirstColon rest with
      | none => none
      | some (k, v) => some (ch :: k, v)

/-- Apply one `K:V` part of a CVSS vector to the parse state. A part without
a colon aborts the whole parse (`it.next()?`); an unknown key is ignored; a
known key with an unknown value resets that metric to `none`. -/
def cvssApplyPart (st : CvssParseState) (part : List Char) : Option CvssParseState :=
  match splitFirstColon part with
  | none => none
  | some (k0, v0) =>
    let k := String.mk (trimChars k0)
    let v := String.mk (trimChars v0)
    if k = "AV" then
      some { st with av :=
        if v = "N" then some 0.85 else if v = "A" then some 0.62
        else if v = "L" then some 0.55 else if v = "P" then some 0.20 else none }
    else if k = "AC" then
      some { st with ac :=
        if v = "L" then some 0.77 else if v = "H" then some 0.44 else none }
    else if k = "PR" then
      some { st with
        pr_u :=
          if v = "N" then some 0.85 else if v = "L" then some 0.62
          else if v = "H" then some 0.27 else none,
        pr_c :=
          if v = "N" then some 0.85 else if v = "L" then some 0.68
          else if v = "H" then some 0.50 else none }
    else if k = "UI" then
      some { st with ui :=
        if v = "N" then some 0.85 else if v = "R" then some 0.62 else none }
    else if k = "S" then
      some { st with scope :=
        if v = "U" then some 'U' else if v = "C" then some 'C' else none }
    else if k = "C" then
      some { st with c :=
        if v = "H" then some 0.56 else if v = "L" then some 0.22
        else if v = "N" then some 0 else none }
    else if k = "I" then
      some { st with i :=
        if v = "H" then some 0.56 else if v = "L" then some 0.22
        else if v = "N" then some 0 else none }
    else if k = "A" then
      some { st with a :=
        if v = "H" then some 0.56 else if v = "L" then some 0.22
        else if v = "N" then some 0 else none }
    else some st

/-- Fold `cvssApplyPart` over all parts, aborting on the first bad part. -/
def cvssParseParts : List (List Char) → CvssParseState → Option CvssParseState
  | [], st => some st
  | p :: rest, st =>
    match cvssApplyPart st p with
    | none => none
    | some st' => cvssParseParts rest st'

/-- The arithmetic tail of `cvss31_base_score_from_vector`: the base-score
formula applied to the extracted metric weights, with `f64` arithmetic
modelled exactly over `ℚ` (all CVSS base weights are decimal constants;
`powf(15.0)` is the monomial power `^ 15`, and `.ceil()` is the rational
ceiling). -/
def cvssScoreFromWeights (scope : Char) (av ac pr ui c i a : ℚ) : Option ℚ :=
  let iss : ℚ := 1 - (1 - c) * (1 - i) * (1 - a)
  let impact : ℚ :=
    if scope = 'U' then (6.42 : ℚ) * iss
    else (7.52 : ℚ) * (iss - 0.029) - (3.25 : ℚ) * (iss - 0.02) ^ (15 : ℕ)
  let exploitability : ℚ := (8.22 : ℚ) * av * ac * pr * ui
  if impact ≤ 0 then some 0
  else
    let raw : ℚ :=
      if scope = 'U' then min (impact + exploitability) 10
      else min ((1.08 : ℚ) * (impact + exploitability)) 10
    some ((⌈raw * 10⌉ : ℚ) / 10)

/-- `cvss31_base_score_from_vector`: strip the `CVSS:3.1/` or `CVSS:3.0/`
prefix, parse the `/`-separated `K:V` parts, require the eight base metrics,
pick `PR` by scope, and apply the base-score formula. -/
def cvss31_base_score_from_vector (s : String) : Option ℚ :=
  let t := trimChars s.data
  let rest? :=
    if "CVSS:3.1/".data.isPrefixOf t then some (t.drop 9)
    else if "CVSS:3.0/".data.isPrefixOf t then some (t.drop 9)
    else none
  match rest? with
  | none => none
  | some rest =>
    match cvssParseParts (splitOnChar '/' rest) initCvssParseState with
    | none => none
    | some st =>
      match st.av, st.ac, st.ui, st.scope with
      | some av, some ac, some ui, some scope =>
        let pr? := if scope = 'U' then st.pr_u else if scope = 'C' then st.pr_c else none
        match pr?, st.c, st.i, st.a with
        | some pr, some c, some i, some a => cvssScoreFromWeights scope av ac pr ui c i a
        | _, _, _, _ => none
      | _, _, _, _ => none

/-- The bounded LRU `DownstreamCache`: capacity, recency list (front =
least-recently-used), and the keyed store (association list; the stored
value type is abstract). -/
structure DownstreamCache (A : Type) where
  max_crates : Nat
  order : List String
  map : List (String × A)

/-- Generic association-list lookup. -/
def lookupMap {A : Type} : List (String × A) → String → Option A
  | [], _ => none
  | (k, v) :: rest, key => if k = key then some v else lookupMap rest key

/-- Generic association-list removal (`HashMap::remove`). -/
def removeMap {A : Type} : List (String × A) → String → List (String × A)
  | [], _ => []
  | (k, v) :: rest, key => if k = key then rest else (k, v) :: removeMap rest key

/-- Generic association-list insert-or-replace (`HashMap::insert`). -/
def insertMap {A : Type} : List (String × A) → String → A → List (String × A)
  | [], key, value => [(key, value)]
  | (k, v) :: rest, key, value =>
    if k = key then (key, value) :: rest else (k, v) :: insertMap rest key value

/-- Remove the first occurrence of a key from the recency list
(`order.remove(pos)` after `iter().position(..)`). -/
def eraseFirst : List String → String → List String
  | [], _ => []
  | k :: rest, key => if k = key then rest else k :: eraseFirst rest key

/-- `DownstreamCache::new`: the capacity is clamped to at least 1
(`max_crates.max(1)`). -/
def DownstreamCache.new (A : Type) (max_crates : Nat) : DownstreamCache A :=
  ⟨max max_crates 1, [], []⟩

/-- `DownstreamCache::touch`: move a key to the most-recently-used (back)
position of the recency list. -/
def DownstreamCache.touch {A : Type} (c : DownstreamCache A) (key : String) :
    DownstreamCache A :=
  { c with order := eraseFirst c.order key ++ [key] }

/-- The eviction while-loop of `DownstreamCache::insert`: while the recency
list is over capacity, pop its front (least-recently-used) key and remove it
from the map. -/
def evictOldest {A : Type} (mx : Nat) :
    List String → List (String × A) → List String × List (String × A)
  | [], m => ([], m)
  | oldest :: restOrder, m =>
    if mx < (oldest :: restOrder).length then evictOldest mx restOrder (removeMap m oldest)
    else (oldest :: restOrder, m)

/-- `DownstreamCache::insert`: store the value, touch the key, then evict
while over capacity. -/
def DownstreamCache.insert {A : Type} (c : DownstreamCache A) (key : String)
    (value : A) : DownstreamCache A :=
  let c1 := { c with map := insertMap c.map key value }
  let c2 := c1.touch key
  let om := evictOldest c2.max_crates c2.order c2.map
  { c2 with order := om.1, map := om.2 }

/-- `DownstreamCache::get_or_fetch`: on a hit, touch the key and return the
cached value without consulting the collaborator; on a miss, delegate to the
history-query collaborator (modelled by the pure `fetch`) and insert the
result. Returns the new cache state and the produced value. -/
def DownstreamCache.get_or_fetch {A : Type} (fetch : String → A)
    (c : DownstreamCache A) (key : String) : DownstreamCache A × A :=
  match lookupMap c.map key with
  | some v => (c.touch key, v)
  | none =>
    let rows := fetch key
    (c.insert key rows, rows)

/-- A whole sequence of `get_or_fetch` operations against one cache. -/
def runCacheOps {A : Type} (fetch : String → A) (c : DownstreamCache A) :
    List String → DownstreamCache A
  | [] => c
  | key :: rest => runCacheOps fetch (c.get_or_fetch fetch key).1 rest

/-- An observation qualifies as the adoption point of the looser detector:
published at or after the carrier's fix time and explicitly fixed. -/
def adoptionQualifies {V R : Type} [LinearOrder V] (lib : SemverLib V R)
    (fix_version : V) (fix_time : Int) (o : DownstreamVersionInfo) : Bool :=
  decide (fix_time ≤ o.created_at) && is_explicitly_fixed lib o.dep_req fix_version

/-- Strictly-better order on `(hop, time)` records: smaller hop, or equal hop
and strictly earlier time. -/
def lexLtHT (a b : Nat × Int) : Prop := a.1 < b.1 ∨ (a.1 = b.1 ∧ a.2 < b.2)

/-- The `(hop, time)` values enqueued for one crate, in enqueue order. -/
def pushesFor (key : String) (log : List (String × Nat × Int)) : List (Nat × Int) :=
  (log.filter (fun e => e.1 = key)).map (fun e => e.2)

/-- Every enqueue of a crate is strictly better than every earlier enqueue of
the same crate: no crate is ever enqueued at the same or a worse `(hop,
time)` than an existing record. -/
def goodPushLog (log : List (String × Nat × Int)) : Prop :=
  ∀ key, (pushesFor key log).Pairwise (fun a b => lexLtHT b a)

/-- Termination measure helper: the rank of a `best_seen` record within a
finite universe `T` of possible adoption times. -/
def rankHT (T : Finset Int) (r : Nat × Int) : Nat :=
  r.1 * (T.card + 1) + (T.filter (fun t => t < r.2)).card

/-- Termination measure, first component: crates of the finite universe `K`
not yet recorded in `best_seen`. -/
def measUnrecorded (K : Finset String) {V : Type} (st : PropState V) : Nat :=
  (K.filter (fun k => lookupBS st.best_seen k = none)).card

/-- Termination measure, second component: total rank of the recorded
crates. -/
def measRank (K : Finset String) (T : Finset Int) {V : Type} (st : PropState V) : Nat :=
  K.sum (fun k =>
    match lookupBS st.best_seen k with
    | none => 0
    | some r => rankHT T r)

/-- The crate's latest requirement observation strictly before the fix time,
in the row order of its history (the `last_before` retained by the
constraint-break analyzer's scan). -/
def groupLastBefore (fix_time : Int) (g : List DownstreamVersionInfo) :
    Option DownstreamVersionInfo :=
  (g.filter (fun r => decide (r.created_at < fix_time))).getLast?

/-- A crate group counts as affected: its latest pre-fix requirement parses
and matches at least one vulnerable version. -/
def groupAffectedB {V R : Type} (lib : SemverLib V R) (vuln_versions : List V)
    (fix_time : Int) (g : List DownstreamVersionInfo) : Bool :=
  match groupLastBefore fix_time g with
  | none => false
  | some lb =>
    match lib.parseReq lb.dep_req with
    | none => false
    | some req => vuln_versions.any (fun v => lib.reqMatches req v)

/-- A crate group counts as locked out: affected, and its latest pre-fix
requirement matches none of the fixed versions. -/
def groupLockedB {V R : Type} (lib : SemverLib V R) (vuln_versions fixed_versions : List V)
    (fix_time : Int) (g : List DownstreamVersionInfo) : Bool :=
  match groupLastBefore fix_time g with
  | none => false
  | some lb =>
    match lib.parseReq lb.dep_req with
    | none => false
    | some req =>
      vuln_versions.any (fun v => lib.reqMatches req v) &&
        !(fixed_versions.any (fun v => lib.reqMatches req v))

/-- Structural invariant of the downstream cache: clamped capacity, recency
list and map keys duplicate-free and in agreement, matching sizes, and size
within capacity. -/
def cacheInv {A : Type} (c : DownstreamCache A) : Prop :=
  1 ≤ c.max_crates ∧ c.order.Nodup ∧ (c.map.map Prod.fst).Nodup ∧
    (∀ k, k ∈ c.order ↔ k ∈ c.map.map Prod.fst) ∧
    c.order.length = c.map.length ∧ c.order.length ≤ c.max_crates

/-- A small concrete instantiation of the semver library over `Nat`
versions (`x.y.z` encoded as `100*x + 10*y + z` for the handful of versions
used) and `Nat` requirement codes, for evaluating the detectors on concrete
inputs. -/
def witLib : SemverLib Nat Nat :=
  { parseVersion := fun s =>
      if s = "1.0.0" then some 100
      else if s = "1.0.1" then some 101
      else if s = "0.9.0" then some 90
      else if s = "0.2.0" then some 20
      else if s = "0.1.0" then some 10
      else if s = "2.0.0" then some 200
      else none,
    parseReq := fun s =>
      if s = "^1.0.0" then some 0
      else if s = "^1.0.1" then some 1
      else if s = "=1.0.0" then some 2
      else if s = "^0.9" then some 3
      else none,
    reqMatches := fun r v =>
      if r = 0 then decide (100 ≤ v) && decide (v < 200)
      else if r = 1 then decide (101 ≤ v) && decide (v < 200)
      else if r = 2 then decide (v = 100)
      else if r = 3 then decide (90 ≤ v) && decide (v < 100)
      else false }

/-- Concrete downstream history for the specification's scenario: crate `d`
declares `^1.0.0` five days before the fix and `^1.0.1` ten days after it
(times in seconds). -/
def witDS : List DownstreamVersionInfo :=
  [⟨"d", "0.1.0", -432000, "^1.0.0"⟩, ⟨"d", "0.2.0", 864000, "^1.0.1"⟩]

/-- The single strict row the scenario produces. -/
def witRow : StrictLagRow Nat :=
  ⟨"d", "0.2.0", 864000, 10, "^1.0.0", "^1.0.1", 101, 0⟩

/-- Downstream history where the first explicitly-fixed observation at or
after the fix has an unparseable version string. -/
def witDS2 : List DownstreamVersionInfo :=
  [⟨"d", "0.1.0", -10, "^0.9"⟩, ⟨"d", "garbage-version", 5, "^1.0.0"⟩]

/-- Constraint-analysis scenario: one downstream crate whose only pre-fix
requirement is the exact pin `=1.0.0`, with 1.0.0 vulnerable. -/
def witGroups : List (String × List DownstreamVersionInfo) :=
  [("d", [⟨"d", "1.0.0", -5, "=1.0.0"⟩])]

/-- A concrete one-carrier propagation state for evaluating the loop. -/
def witPropSt : PropState Nat := ⟨[⟨"x", 100, 0, 1⟩], [], [], [], false⟩

/-- A concrete downstream-history snapshot: only crate `d` has history. -/
def witHist : String → List DownstreamVersionInfo :=
  fun k => if k = "d" then witDS else []

/-- Coherence of the `best_seen` map with the ghost push log: each crate's
record is exactly its most recent enqueued `(hop, time)`. -/
def bsLogInv {V : Type} (st : PropState V) : Prop :=
  ∀ k, lookupBS st.best_seen k = (pushesFor k st.pushLog).getLast?

/-- Strict lexicographic order on pairs of naturals (termination measure). -/
def lexLtNN (a b : Nat × Nat) : Prop := a.1 < b.1 ∨ (a.1 = b.1 ∧ a.2 < b.2)

/-- The merge step of the `best_match` fold, named for reuse in proofs. -/
def bmStep {V R : Type} [LinearOrder V] (lib : SemverLib V R) (req : R)
    (item : DownstreamVersionInfo) (best : Option (V × Int)) (p : V × Int) :
    Option (V × Int) :=
  if strict_candidate_matches lib req item p then
    match best with
    | none => some p
    | some q => if p.2 < q.2 then some p else some q
  else best

theorem strict_best_match_eq_foldl_bmStep {V R : Type} [LinearOrder V]
    (lib : SemverLib V R) (fix_times : List (V × Int)) (req : R)
    (item : DownstreamVersionInfo) :
    strict_best_match lib fix_times req item = fix_times.foldl (bmStep lib req item) none := rfl

theorem bmStep_some {V R : Type} [LinearOrder V] (lib : SemverLib V R) (req : R)
    (item : DownstreamVersionInfo) (acc : Option (V × Int)) (p x : V × Int)
    (h : bmStep lib req item acc p = some x) :
    (acc = some x ∨ x = p) := by
  by_cases hc : strict_candidate_matches lib req item p = true
  · cases acc with
    | none =>
      have hpx : some p = some x := by simpa [bmStep, hc] using h
      exact Or.inr (Option.some_inj.mp hpx).symm
    | some q =>
      by_cases hlt : p.2 < q.2
      · have hpx : some p = some x := by simpa [bmStep, hc, hlt] using h
        exact Or.inr (Option.some_inj.mp hpx).symm
      · have hqx : some q = some x := by simpa [bmStep, hc, hlt] using h
        exact Or.inl hqx
  · have hax : acc = some x := by simpa [bmStep, hc] using h
    exact Or.inl hax

theorem bmStep_cand {V R : Type} [LinearOrder V] (lib : SemverLib V R) (req : R)
    (item : DownstreamVersionInfo) (acc : Option (V × Int)) (p x : V × Int)
    (hacc : ∀ q, acc = some q → strict_candidate_matches lib req item q = true)
    (h : bmStep lib req item acc p = some x) :
    strict_candidate_matches lib req item x = true := by
  rcases bmStep_some lib req item acc p x h with h1 | h2
  · exact hacc x h1
  · subst h2
    by_cases hc : strict_candidate_matches lib req item x = true
    · exact hc
    · have hax : acc = some x := by simpa [bmStep, hc] using h
      exact hacc x hax

theorem bmStep_min_new {V R : Type} [LinearOrder V] (lib : SemverLib V R) (req : R)
    (item : DownstreamVersionInfo) (acc : Option (V × Int)) (p : V × Int)
    (hc : strict_candidate_matches lib req item p = true) :
    ∃ x, bmStep lib req item acc p = some x ∧ x.2 ≤ p.2 := by
  cases acc with
  | none => exact ⟨p, by simp [bmStep, hc], le_refl _⟩
  | some q =>
    by_cases hlt : p.2 < q.2
    · exact ⟨p, by simp [bmStep, hc, hlt], le_refl _⟩
    · exact ⟨q, by simp [bmStep, hc, hlt], le_of_not_lt hlt⟩

theorem bmStep_min_old {V R : Type} [LinearOrder V] (lib : SemverLib V R) (req : R)
    (item : DownstreamVersionInfo) (q : V × Int) (p : V × Int) :
    ∃ x, bmStep lib req item (some q) p = some x ∧ x.2 ≤ q.2 := by
  by_cases hc : strict_candidate_matches lib req item p = true
  · by_cases hlt : p.2 < q.2
    · exact ⟨p, by simp [bmStep, hc, hlt], le_of_lt hlt⟩
    · exact ⟨q, by simp [bmStep, hc, hlt], le_refl _⟩
  · exact ⟨q, by simp [bmStep, hc], le_refl _⟩

theorem strict_best_match_go {V R : Type} [LinearOrder V] (lib : SemverLib V R)
    (req : R) (item : DownstreamVersionInfo) :
    ∀ (l : List (V × Int)) (acc : Option (V × Int)),
      (∀ q, acc = some q → strict_candidate_matches lib req item q = true) →
      ∀ x, l.foldl (bmStep lib req item) acc = some x →
        strict_candidate_matches lib req item x = true ∧
        (acc = some x ∨ x ∈ l) ∧
        (∀ p ∈ l, strict_candidate_matches lib req item p = true → x.2 ≤ p.2) ∧
        (∀ q, acc = some q → x.2 ≤ q.2)
  | [], acc, hacc, x, hfold => by
    simp only [List.foldl_nil] at hfold
    exact ⟨hacc x hfold, Or.inl hfold, by simp, fun q hq => by
      rw [hq] at hfold; cases hfold; exact le_refl _⟩
  | p :: l, acc, hacc, x, hfold => by
    simp only [List.foldl_cons] at hfold
    have hacc' : ∀ q, bmStep lib req item acc p = some q →
        strict_candidate_matches lib req item q = true :=
      fun q hq => bmStep_cand lib req item acc p q hacc hq
    obtain ⟨h1, h2, h3, h4⟩ :=
      strict_best_match_go lib req item l (bmStep lib req item acc p) hacc' x hfold
    refine ⟨h1, ?_, ?_, ?_⟩
    · rcases h2 with h2 | h2
      · rcases bmStep_some lib req item acc p x h2 with hl | hr
        · exact Or.inl hl
        · exact Or.inr (hr ▸ List.mem_cons_self p l)
      · exact Or.inr (List.mem_cons_of_mem p h2)
    · intro p2 hp2 hc
      rcases List.mem_cons.mp hp2 with rfl | hp2
      · obtain ⟨y, hy, hyle⟩ := bmStep_min_new lib req item acc p2 hc
        exact le_trans (h4 y hy) hyle
      · exact h3 p2 hp2 hc
    · intro q hq
      subst hq
      obtain ⟨y, hy, hyle⟩ := bmStep_min_old lib req item q p
      exact le_trans (h4 y hy) hyle

theorem strict_best_match_spec {V R : Type} [LinearOrder V] (lib : SemverLib V R)
    (fix_times : List (V × Int)) (req : R) (item : DownstreamVersionInfo)
    (x : V × Int) (h : strict_best_match lib fix_times req item = some x) :
    strict_candidate_matches lib req item x = true ∧
    x ∈ fix_times ∧
    (∀ p ∈ fix_times, strict_candidate_matches lib req item p = true → x.2 ≤ p.2) := by
  rw [strict_best_match_eq_foldl_bmStep] at h
  obtain ⟨h1, h2, h3, _⟩ :=
    strict_best_match_go lib req item fix_times none (by intro q hq; cases hq) x h
  refine ⟨h1, ?_, h3⟩
  rcases h2 with h2 | h2
  · cases h2
  · exact h2

theorem strict_candidate_matches_congr {V R : Type} [LinearOrder V] (lib : SemverLib V R)
    (req : R) (a b : DownstreamVersionInfo) (p : V × Int)
    (hd : a.dep_req = b.dep_req) (hc : a.created_at = b.created_at) :
    strict_candidate_matches lib req a p = strict_candidate_matches lib req b p := by
  unfold strict_candidate_matches strict_pair_matches
  rw [hd, hc]

theorem strictScanLoop_spec {V R : Type} [LinearOrder V] (lib : SemverLib V R)
    (fix_times : List (V × Int)) (vuln_versions : List V) (crate : String) :
    ∀ (hist : List DownstreamVersionInfo) (ea : Bool) (lv : Option String)
      (row : StrictLagRow V),
      (strictScanLoop lib fix_times vuln_versions crate hist ea lv).1 = some row →
      row.downstream_crate = crate ∧
      row.lag_days = num_days (row.downstream_time - row.matched_fix_time) ∧
      0 ≤ row.lag_days ∧
      (row.matched_fix_version, row.matched_fix_time) ∈ fix_times ∧
      ∃ req, lib.parseReq row.fixed_req = some req ∧
        (∀ v ∈ vuln_versions, lib.reqMatches req v = false) ∧
        strict_candidate_matches lib req
          ⟨crate, row.downstream_version, row.downstream_time, row.fixed_req⟩
          (row.matched_fix_version, row.matched_fix_time) = true ∧
        (∀ p ∈ fix_times, strict_candidate_matches lib req
          ⟨crate, row.downstream_version, row.downstream_time, row.fixed_req⟩ p = true →
          row.matched_fix_time ≤ p.2) := by
  intro hist
  induction hist with
  | nil =>
    intro ea lv row h
    simp [strictScanLoop] at h
  | cons item rest ih =>
    intro ea lv row h
    rw [strictScanLoop] at h
    cases hp : lib.parseReq item.dep_req with
    | none =>
      rw [hp] at h
      exact ih ea lv row h
    | some req =>
      rw [hp] at h
      dsimp only at h
      by_cases hv : vuln_versions.any (fun v => lib.reqMatches req v) = true
      · rw [if_pos hv] at h
        exact ih true (some item.dep_req) row h
      · rw [if_neg hv] at h
        cases ea with
        | false =>
          simp only [Bool.false_eq_true, if_false] at h
          exact ih false lv row h
        | true =>
          simp only [if_true] at h
          cases hbm : strict_best_match lib fix_times req item with
          | none =>
            rw [hbm] at h
            exact ih true lv row h
          | some x =>
            rw [hbm] at h
            obtain ⟨mv, mt⟩ := x
            cases lv with
            | none => exact ih true none row h
            | some original_req =>
              simp only at h
              by_cases hneg : num_days (item.created_at - mt) < 0
              · rw [if_pos hneg] at h
                exact ih true none row h
              · rw [if_neg hneg] at h
                simp only [Prod.fst] at h
                have hrow : row = ⟨crate, item.version, item.created_at,
                    num_days (item.created_at - mt), original_req, item.dep_req, mv, mt⟩ :=
                  (Option.some_inj.mp h).symm
                subst hrow
                obtain ⟨hc1, hc2, hc3⟩ := strict_best_match_spec lib fix_times req item (mv, mt) hbm
                have hvf : ∀ v ∈ vuln_versions, lib.reqMatches req v = false := by
                  intro v hvv
                  cases hb : lib.reqMatches req v
                  · rfl
                  · exact absurd (List.any_eq_true.mpr ⟨v, hvv, hb⟩) hv
                have hcongr : ∀ p : V × Int, strict_candidate_matches lib req item p =
                    strict_candidate_matches lib req
                      ⟨crate, item.version, item.created_at, item.dep_req⟩ p := by
                  intro p
                  exact strict_candidate_matches_congr lib req item _ p rfl rfl
                refine ⟨rfl, rfl, le_of_not_lt hneg, hc2, req, hp, hvf, ?_, ?_⟩
                · rw [← hcongr]; exact hc1
                · intro p hpmem hpc
                  exact hc3 p hpmem ((hcongr p) ▸ hpc)

theorem insertRow_perm {V : Type} (x : StrictLagRow V) (l : List (StrictLagRow V)) :
    List.Perm (insertRow x l) (x :: l) := by
  induction l with
  | nil => exact List.Perm.refl _
  | cons y ys ih =>
    rw [insertRow]
    split_ifs
    · exact List.Perm.refl _
    · exact List.Perm.trans (List.Perm.cons y ih) (List.Perm.swap x y ys)

theorem sortRows_perm {V : Type} (l : List (StrictLagRow V)) :
    List.Perm (sortRows l) l := by
  induction l with
  | nil => exact List.Perm.refl _
  | cons x xs ih =>
    rw [sortRows]
    exact List.Perm.trans (insertRow_perm x (sortRows xs)) (List.Perm.cons x ih)

theorem dedupFirstAux_sound :
    ∀ (l seen : List String),
      (dedupFirstAux l seen).Nodup ∧ (∀ x ∈ dedupFirstAux l seen, x ∉ seen) := by
  intro l
  induction l with
  | nil => intro seen; simp [dedupFirstAux]
  | cons n rest ih =>
    intro seen
    rw [dedupFirstAux]
    split_ifs with hmem
    · exact ih seen
    · obtain ⟨hnd, hout⟩ := ih (n :: seen)
      refine ⟨List.nodup_cons.mpr ⟨?_, hnd⟩, ?_⟩
      · intro hx
        exact hout n hx (List.mem_cons_self n seen)
      · intro x hx
        rcases List.mem_cons.mp hx with rfl | hx
        · exact hmem
        · exact fun hseen => hout x hx (List.mem_cons_of_mem n hseen)

theorem dedupFirst_nodup (l : List String) : (dedupFirst l).Nodup :=
  (dedupFirstAux_sound l []).1

theorem groupByCrate_keys_nodup (rows : List DownstreamVersionInfo) :
    ((groupByCrate rows).map Prod.fst).Nodup := by
  unfold groupByCrate
  rw [List.map_map]
  have : (Prod.fst ∘ fun n => (n, rows.filter (fun r => r.crate_name == n))) = id := by
    funext n; rfl
  rw [this, List.map_id]
  exact dedupFirst_nodup _

theorem groupByCrate_row_names (rows : List DownstreamVersionInfo)
    (g : String × List DownstreamVersionInfo) (hg : g ∈ groupByCrate rows) :
    ∀ r ∈ g.2, r.crate_name = g.1 := by
  unfold groupByCrate at hg
  obtain ⟨n, _, rfl⟩ := List.mem_map.mp hg
  intro r hr
  have := List.of_mem_filter hr
  exact eq_of_beq this

theorem filterMap_keyed_count_le_one {α β : Type} (f : α → Option β)
    (gkey : α → String) (key : β → String) :
    ∀ (l : List α), (l.map gkey).Nodup →
      (∀ a b, a ∈ l → f a = some b → key b = gkey a) →
      ∀ c : String, ((l.filterMap f).filter (fun b => key b == c)).length ≤ 1 := by
  intro l
  induction l with
  | nil => intro _ _ c; simp
  | cons a rest ih =>
    intro hnd hf c
    rw [List.map_cons, List.nodup_cons] at hnd
    obtain ⟨hnot, hnd'⟩ := hnd
    rw [List.filterMap_cons]
    cases hfa : f a with
    | none => exact ih hnd' (fun a' b ha' => hf a' b (List.mem_cons_of_mem a ha')) c
    | some b =>
      rw [List.filter_cons]
      by_cases hb : (key b == c) = true
      · rw [if_pos hb]
        have hrest : (rest.filterMap f).filter (fun b' => key b' == c) = [] := by
          rw [List.filter_eq_nil_iff]
          intro b' hb'
          obtain ⟨a', ha', hfa'⟩ := List.mem_filterMap.mp hb'
          have h1 : key b' = gkey a' := hf a' b' (List.mem_cons_of_mem a ha') hfa'
          have h2 : key b = gkey a := hf a b (List.mem_cons_self a rest) hfa
          have h3 : gkey a = c := by
            rw [← h2]; exact eq_of_beq hb
          intro hcon
          apply hnot
          have hkeys : gkey a = gkey a' := h3.trans ((eq_of_beq hcon).symm.trans h1)
          rw [hkeys]
          exact List.mem_map.mpr ⟨a', ha', rfl⟩
        rw [List.length_cons, hrest]
        simp
      · rw [if_neg hb]
        exact ih hnd' (fun a' b' ha' => hf a' b' (List.mem_cons_of_mem a ha')) c

theorem compute_strict_lags_mem {V R : Type} [LinearOrder V] (lib : SemverLib V R)
    (fix_times : List (V × Int)) (vuln_versions : List V)
    (downstream : List DownstreamVersionInfo) (row : StrictLagRow V)
    (h : row ∈ (compute_strict_lags_for_target lib fix_times vuln_versions downstream).1) :
    ∃ g ∈ groupByCrate downstream,
      (strictScanLoop lib fix_times vuln_versions g.1 (sortObs g.2) false none).1 = some row := by
  unfold compute_strict_lags_for_target at h
  simp only at h
  have h2 := (sortRows_perm _).mem_iff.mp h
  rw [List.filterMap_map] at h2
  obtain ⟨g, hg, hfg⟩ := List.mem_filterMap.mp h2
  exact ⟨g, hg, hfg⟩

/-- C1: every `StrictLagRow` emitted by the strict lag detector has
`lag_days` equal to the whole-day difference between the downstream publish
time and the matched fix time, `lag_days` is non-negative (negative-lag
candidates are rejected into the skipped-negative diagnostic counter rather
than emitted), and at most one row is emitted per downstream crate per
advisory. -/
theorem strict_rows_lag_correct_and_unique {V R : Type} [LinearOrder V]
    (lib : SemverLib V R) (fix_times : List (V × Int)) (vuln_versions : List V)
    (downstream : List DownstreamVersionInfo) :
    (∀ row ∈ (compute_strict_lags_for_target lib fix_times vuln_versions downstream).1,
      row.lag_days = num_days (row.downstream_time - row.matched_fix_time) ∧
        0 ≤ row.lag_days) ∧
    (∀ c : String,
      ((compute_strict_lags_for_target lib fix_times vuln_versions downstream).1.filter
        (fun row => row.downstream_crate == c)).length ≤ 1) := by
  constructor
  · intro row hrow
    obtain ⟨g, hg, hscan⟩ :=
      compute_strict_lags_mem lib fix_times vuln_versions downstream row hrow
    obtain ⟨_, hlag, hnn, _⟩ :=
      strictScanLoop_spec lib fix_times vuln_versions g.1 (sortObs g.2) false none row hscan
    exact ⟨hlag, hnn⟩
  · intro c
    have hperm : List.Perm
        ((compute_strict_lags_for_target lib fix_times vuln_versions downstream).1.filter
          (fun row => row.downstream_crate == c))
        ((((groupByCrate downstream).map
            (fun g => strictScanLoop lib fix_times vuln_versions g.1 (sortObs g.2) false none)).filterMap
          (·.1)).filter (fun row => row.downstream_crate == c)) :=
      (sortRows_perm _).filter _
    rw [hperm.length_eq, List.filterMap_map]
    refine filterMap_keyed_count_le_one
      (fun g => (strictScanLoop lib fix_times vuln_versions g.1 (sortObs g.2) false none).1)
      Prod.fst (fun row => row.downstream_crate) (groupByCrate downstream)
      (groupByCrate_keys_nodup downstream) ?_ c
    intro g row hgmem hscan
    exact (strictScanLoop_spec lib fix_times vuln_versions g.1 (sortObs g.2) false none row hscan).1

/-- C2: for every emitted strict row, the matched `(fixed_version,
fix_time)` pair is one of the advisory's fix pairs, its fix time does not
exceed the adopting observation's publish time, it matches the adopting
requirement directly or via the `estimate_min_version` heuristic, and among
all such matching pairs it has the earliest fix time. -/
theorem strict_rows_matched_fix_earliest {V R : Type} [LinearOrder V]
    (lib : SemverLib V R) (fix_times : List (V × Int)) (vuln_versions : List V)
    (downstream : List DownstreamVersionInfo) (row : StrictLagRow V)
    (hrow : row ∈ (compute_strict_lags_for_target lib fix_times vuln_versions downstream).1) :
    (row.matched_fix_version, row.matched_fix_time) ∈ fix_times ∧
    row.matched_fix_time ≤ row.downstream_time ∧
    ∃ req, lib.parseReq row.fixed_req = some req ∧
      strict_candidate_matches lib req
        ⟨row.downstream_crate, row.downstream_version, row.downstream_time, row.fixed_req⟩
        (row.matched_fix_version, row.matched_fix_time) = true ∧
      ∀ p ∈ fix_times, strict_candidate_matches lib req
        ⟨row.downstream_crate, row.downstream_version, row.downstream_time, row.fixed_req⟩
        p = true → row.matched_fix_time ≤ p.2 := by
  obtain ⟨g, hg, hscan⟩ :=
    compute_strict_lags_mem lib fix_times vuln_versions downstream row hrow
  obtain ⟨hcr, _, _, hmem, req, hreq, _, hcand, hmin⟩ :=
    strictScanLoop_spec lib fix_times vuln_versions g.1 (sortObs g.2) false none row hscan
  have hcongr : ∀ p : V × Int,
      strict_candidate_matches lib req
        ⟨g.1, row.downstream_version, row.downstream_time, row.fixed_req⟩ p =
      strict_candidate_matches lib req
        ⟨row.downstream_crate, row.downstream_version, row.downstream_time, row.fixed_req⟩ p := by
    intro p
    exact strict_candidate_matches_congr lib req _ _ p rfl rfl
  refine ⟨hmem, ?_, req, hreq, ?_, ?_⟩
  · have := (Bool.and_eq_true _ _).mp ((hcongr _) ▸ hcand)
    exact of_decide_eq_true this.1
  · rw [← hcongr]; exact hcand
  · intro p hp hc
    exact hmin p hp ((hcongr p) ▸ hc)

/-- C10: every emitted strict row's adopted requirement (`fixed_req`) is
parseable and matches none of the advisory's vulnerable versions: an
observation is only evaluated as a candidate fix on the branch where its
requirement matched no vulnerable version. -/
theorem strict_rows_fixed_req_not_vulnerable {V R : Type} [LinearOrder V]
    (lib : SemverLib V R) (fix_times : List (V × Int)) (vuln_versions : List V)
    (downstream : List DownstreamVersionInfo) (row : StrictLagRow V)
    (hrow : row ∈ (compute_strict_lags_for_target lib fix_times vuln_versions downstream).1) :
    ∃ req, lib.parseReq row.fixed_req = some req ∧
      ∀ v ∈ vuln_versions, lib.reqMatches req v = false := by
  obtain ⟨g, hg, hscan⟩ :=
    compute_strict_lags_mem lib fix_times vuln_versions downstream row hrow
  obtain ⟨_, _, _, _, req, hreq, hvf, _⟩ :=
    strictScanLoop_spec lib fix_times vuln_versions g.1 (sortObs g.2) false none row hscan
  exact ⟨req, hreq, hvf⟩

theorem strict_rows_lag_correct_and_unique_witness :
    witRow ∈ (compute_strict_lags_for_target witLib [(101, 0)] [100] witDS).1 ∧
    (witRow.lag_days = num_days (witRow.downstream_time - witRow.matched_fix_time) ∧
      0 ≤ witRow.lag_days) :=
  ⟨by decide,
    (strict_rows_lag_correct_and_unique witLib [(101, 0)] [100] witDS).1 witRow (by decide)⟩

theorem strict_rows_matched_fix_earliest_witness :
    witRow ∈ (compute_strict_lags_for_target witLib [(101, 0)] [100] witDS).1 ∧
    ((witRow.matched_fix_version, witRow.matched_fix_time) ∈ [((101 : Nat), (0 : Int))] ∧
      witRow.matched_fix_time ≤ witRow.downstream_time ∧
      ∃ req, witLib.parseReq witRow.fixed_req = some req ∧
        strict_candidate_matches witLib req
          ⟨witRow.downstream_crate, witRow.downstream_version, witRow.downstream_time,
            witRow.fixed_req⟩
          (witRow.matched_fix_version, witRow.matched_fix_time) = true ∧
        ∀ p ∈ [((101 : Nat), (0 : Int))], strict_candidate_matches witLib req
          ⟨witRow.downstream_crate, witRow.downstream_version, witRow.downstream_time,
            witRow.fixed_req⟩ p = true → witRow.matched_fix_time ≤ p.2) :=
  ⟨by decide,
    strict_rows_matched_fix_earliest witLib [(101, 0)] [100] witDS witRow (by decide)⟩

theorem strict_rows_fixed_req_not_vulnerable_witness :
    witRow ∈ (compute_strict_lags_for_target witLib [(101, 0)] [100] witDS).1 ∧
    (∃ req, witLib.parseReq witRow.fixed_req = some req ∧
      ∀ v ∈ [(100 : Nat)], witLib.reqMatches req v = false) :=
  ⟨by decide,
    strict_rows_fixed_req_not_vulnerable witLib [(101, 0)] [100] witDS witRow (by decide)⟩

theorem insertV_perm {V : Type} [LinearOrder V] (x : V) (l : List V) :
    List.Perm (insertV x l) (x :: l) := by
  induction l with
  | nil => exact List.Perm.refl _
  | cons y ys ih =>
    rw [insertV]
    split_ifs
    · exact List.Perm.refl _
    · exact List.Perm.trans (List.Perm.cons y ih) (List.Perm.swap x y ys)

theorem sortV_perm {V : Type} [LinearOrder V] (l : List V) :
    List.Perm (sortV l) l := by
  induction l with
  | nil => exact List.Perm.refl _
  | cons x xs ih =>
    rw [sortV]
    exact List.Perm.trans (insertV_perm x (sortV xs)) (List.Perm.cons x ih)

theorem mem_sortV {V : Type} [LinearOrder V] (v : V) (l : List V) :
    v ∈ sortV l ↔ v ∈ l :=
  (sortV_perm l).mem_iff

/-- C7: a version is in the identified vulnerable set exactly when it is a
parseable published version matched by no parseable patched requirement and
no parseable unaffected requirement; when both requirement sets are empty
the two matching conditions are vacuous, so the set is all parseable
published versions. -/
theorem identify_vuln_versions_spec {V R : Type} [LinearOrder V] (lib : SemverLib V R)
    (all_versions patched unaffected : List String) (v : V) :
    v ∈ identify_vuln_versions lib all_versions patched unaffected ↔
      ((∃ s ∈ all_versions, lib.parseVersion s = some v) ∧
       (∀ req ∈ patched.filterMap lib.parseReq, lib.reqMatches req v = false) ∧
       (∀ req ∈ unaffected.filterMap lib.parseReq, lib.reqMatches req v = false)) := by
  unfold identify_vuln_versions
  split_ifs with he
  · obtain ⟨h1, h2⟩ := (Bool.and_eq_true _ _).mp he
    have hp : patched = [] := List.isEmpty_iff.mp h1
    have hu : unaffected = [] := List.isEmpty_iff.mp h2
    subst hp; subst hu
    rw [mem_sortV, List.mem_filterMap]
    simp
  · rw [mem_sortV, List.mem_filterMap]
    constructor
    · rintro ⟨s, hs, hf⟩
      cases hps : lib.parseVersion s with
      | none => rw [hps] at hf; cases hf
      | some w =>
        rw [hps] at hf
        dsimp only at hf
        split_ifs at hf with hcond
        · have hw : w = v := Option.some_inj.mp hf
          subst hw
          obtain ⟨hcp, hcu⟩ := (Bool.and_eq_true _ _).mp hcond
          rw [Bool.not_eq_true'] at hcp hcu
          refine ⟨⟨s, hs, hps⟩, ?_, ?_⟩
          · intro req hreq
            have hne := List.any_eq_false.mp hcp req hreq
            simpa using hne
          · intro req hreq
            have hne := List.any_eq_false.mp hcu req hreq
            simpa using hne
    · rintro ⟨⟨s, hs, hps⟩, h2, h3⟩
      refine ⟨s, hs, ?_⟩
      rw [hps]
      dsimp only
      rw [if_pos]
      apply (Bool.and_eq_true _ _).mpr
      constructor
      · rw [Bool.not_eq_true']
        exact List.any_eq_false.mpr (fun req hreq => by simp [h2 req hreq])
      · rw [Bool.not_eq_true']
        exact List.any_eq_false.mpr (fun req hreq => by simp [h3 req hreq])

/-- C8: the CVSS v3.1 vector `AV:N/AC:L/PR:N/UI:N/S:U/C:H/I:H/A:H` scores a
base score of 9.8 (= 49/5, after rounding up to one decimal) and buckets as
CRITICAL; and in general the bucketing applies the fixed thresholds: at most
0 gives INFO (the source additionally maps non-finite `f64` scores to INFO;
every rational is finite), below 4 LOW, below 7 MEDIUM, below 9 HIGH,
otherwise CRITICAL. -/
theorem cvss_vector_critical_and_thresholds :
    cvss31_base_score_from_vector "CVSS:3.1/AV:N/AC:L/PR:N/UI:N/S:U/C:H/I:H/A:H" =
      some (49/5) ∧
    severity_from_cvss_score (49/5) = "CRITICAL" ∧
    (∀ q : ℚ, severity_from_cvss_score q =
      if q ≤ 0 then "INFO" else if q < 4 then "LOW" else if q < 7 then "MEDIUM"
      else if q < 9 then "HIGH" else "CRITICAL") := by
  refine ⟨?_, ?_, fun q => rfl⟩
  · have h1 : cvss31_base_score_from_vector "CVSS:3.1/AV:N/AC:L/PR:N/UI:N/S:U/C:H/I:H/A:H" =
        cvssScoreFromWeights 'U' 0.85 0.77 0.85 0.85 0.56 0.56 0.56 := rfl
    rw [h1, cvssScoreFromWeights]
    have h2 : ⌈(1952032299/20000000 : ℚ)⌉ = 98 := by norm_num [Int.ceil_eq_iff]
    norm_num [min_def, h2]
  · rw [severity_from_cvss_score]
    norm_num

theorem lookupMap_eq_none_iff {A : Type} :
    ∀ (m : List (String × A)) (k : String),
      lookupMap m k = none ↔ k ∉ m.map Prod.fst
  | [], k => by simp [lookupMap]
  | (k1, v1) :: rest, k => by
    rw [lookupMap]
    by_cases h : k1 = k
    · subst h
      simp
    · rw [if_neg h]
      rw [lookupMap_eq_none_iff rest k]
      simp [Ne.symm h]

theorem lookup_insertMap {A : Type} :
    ∀ (m : List (String × A)) (k : String) (v : A) (k2 : String),
      lookupMap (insertMap m k v) k2 = if k2 = k then some v else lookupMap m k2
  | [], k, v, k2 => by
    by_cases h : k2 = k
    · subst h; simp [insertMap, lookupMap]
    · have h' : ¬(k = k2) := fun hh => h hh.symm
      simp [insertMap, lookupMap, h, h']
  | (k1, v1) :: rest, k, v, k2 => by
    by_cases h1 : k1 = k
    · subst h1
      by_cases h2 : k2 = k1
      · subst h2; simp [insertMap, lookupMap]
      · have h2' : ¬(k1 = k2) := fun hh => h2 hh.symm
        simp [insertMap, lookupMap, h2, h2']
    · by_cases h2 : k2 = k1
      · subst h2
        simp [insertMap, lookupMap, h1]
      · have h2' : ¬(k1 = k2) := fun hh => h2 hh.symm
        simp [insertMap, lookupMap, h1, h2, h2', lookup_insertMap rest k v k2]

theorem insertMap_keys_mem {A : Type} :
    ∀ (m : List (String × A)) (k : String) (v : A) (k2 : String),
      k2 ∈ (insertMap m k v).map Prod.fst ↔ k2 = k ∨ k2 ∈ m.map Prod.fst
  | [], k, v, k2 => by simp [insertMap]
  | (k1, v1) :: rest, k, v, k2 => by
    rw [insertMap]
    by_cases h1 : k1 = k
    · subst h1; simp
    · rw [if_neg h1]
      simp only [List.map_cons, List.mem_cons]
      rw [insertMap_keys_mem rest k v k2]
      tauto

theorem insertMap_keys_nodup {A : Type} :
    ∀ (m : List (String × A)) (k : String) (v : A),
      (m.map Prod.fst).Nodup → ((insertMap m k v).map Prod.fst).Nodup
  | [], k, v, _ => by simp [insertMap]
  | (k1, v1) :: rest, k, v, hnd => by
    rw [List.map_cons, List.nodup_cons] at hnd
    obtain ⟨hk1, hnd'⟩ := hnd
    rw [insertMap]
    by_cases h1 : k1 = k
    · subst h1
      rw [if_pos rfl, List.map_cons, List.nodup_cons]
      exact ⟨hk1, hnd'⟩
    · rw [if_neg h1, List.map_cons, List.nodup_cons]
      refine ⟨?_, insertMap_keys_nodup rest k v hnd'⟩
      intro hmem
      rcases (insertMap_keys_mem rest k v k1).mp hmem with rfl | hmem2
      · exact h1 rfl
      · exact hk1 hmem2

theorem insertMap_length_mem {A : Type} :
    ∀ (m : List (String × A)) (k : String) (v : A),
      k ∈ m.map Prod.fst → (insertMap m k v).length = m.length
  | [], k, v, h => by simp at h
  | (k1, v1) :: rest, k, v, h => by
    rw [List.map_cons] at h
    rw [insertMap]
    by_cases h1 : k1 = k
    · rw [if_pos h1]; rfl
    · rcases List.mem_cons.mp h with h2 | h2
      · exact absurd h2.symm h1
      · rw [if_neg h1, List.length_cons, List.length_cons,
          insertMap_length_mem rest k v h2]

theorem insertMap_length_new {A : Type} :
    ∀ (m : List (String × A)) (k : String) (v : A),
      k ∉ m.map Prod.fst → (insertMap m k v).length = m.length + 1
  | [], k, v, _ => rfl
  | (k1, v1) :: rest, k, v, h => by
    rw [List.map_cons] at h
    have h1 : k1 ≠ k := fun hh => h (hh ▸ List.mem_cons_self _ _)
    have h2 : k ∉ rest.map Prod.fst := fun hh => h (List.mem_cons_of_mem _ hh)
    rw [insertMap, if_neg h1, List.length_cons, List.length_cons,
      insertMap_length_new rest k v h2]

theorem lookup_removeMap {A : Type} :
    ∀ (m : List (String × A)) (k : String) (k2 : String),
      (m.map Prod.fst).Nodup →
      lookupMap (removeMap m k) k2 = if k2 = k then none else lookupMap m k2
  | [], k, k2, _ => by simp [removeMap, lookupMap]
  | (k1, v1) :: rest, k, k2, hnd => by
    rw [List.map_cons, List.nodup_cons] at hnd
    obtain ⟨hk1, hnd'⟩ := hnd
    rw [removeMap]
    by_cases h1 : k1 = k
    · subst h1
      rw [if_pos rfl]
      by_cases h2 : k2 = k1
      · subst h2
        rw [if_pos rfl, (lookupMap_eq_none_iff rest k2).mpr hk1]
      · rw [if_neg h2, lookupMap, if_neg (fun hh => h2 hh.symm)]
    · rw [if_neg h1, lookupMap]
      by_cases h2 : k1 = k2
      · subst h2
        rw [if_pos rfl, if_neg h1, lookupMap, if_pos rfl]
      · rw [if_neg h2, lookup_removeMap rest k k2 hnd', lookupMap, if_neg h2]

theorem removeMap_keys_mem {A : Type} :
    ∀ (m : List (String × A)) (k : String) (k2 : String),
      (m.map Prod.fst).Nodup →
      (k2 ∈ (removeMap m k).map Prod.fst ↔ k2 ∈ m.map Prod.fst ∧ k2 ≠ k)
  | [], k, k2, _ => by simp [removeMap]
  | (k1, v1) :: rest, k, k2, hnd => by
    rw [List.map_cons, List.nodup_cons] at hnd
    obtain ⟨hk1, hnd'⟩ := hnd
    rw [removeMap]
    by_cases h1 : k1 = k
    · subst h1
      rw [if_pos rfl]
      simp only [List.map_cons, List.mem_cons]
      constructor
      · intro h
        exact ⟨Or.inr h, fun hh => hk1 (hh ▸ h)⟩
      · rintro ⟨h, hne⟩
        rcases h with rfl | h
        · exact absurd rfl hne
        · exact h
    · rw [if_neg h1]
      simp only [List.map_cons, List.mem_cons]
      rw [removeMap_keys_mem rest k k2 hnd']
      constructor
      · rintro (rfl | ⟨h, hne⟩)
        · exact ⟨Or.inl rfl, fun hh => h1 hh⟩
        · exact ⟨Or.inr h, hne⟩
      · rintro ⟨rfl | h, hne⟩
        · exact Or.inl rfl
        · exact Or.inr ⟨h, hne⟩

theorem removeMap_keys_nodup {A : Type} :
    ∀ (m : List (String × A)) (k : String),
      (m.map Prod.fst).Nodup → ((removeMap m k).map Prod.fst).Nodup
  | [], k, _ => by simp [removeMap]
  | (k1, v1) :: rest, k, hnd => by
    rw [List.map_cons, List.nodup_cons] at hnd
    obtain ⟨hk1, hnd'⟩ := hnd
    rw [removeMap]
    by_cases h1 : k1 = k
    · rw [if_pos h1]; exact hnd'
    · rw [if_neg h1, List.map_cons, List.nodup_cons]
      refine ⟨?_, removeMap_keys_nodup rest k hnd'⟩
      intro hmem
      exact hk1 ((removeMap_keys_mem rest k k1 hnd').mp hmem).1

theorem removeMap_length_mem {A : Type} :
    ∀ (m : List (String × A)) (k : String),
      k ∈ m.map Prod.fst → (removeMap m k).length + 1 = m.length
  | [], k, h => by simp at h
  | (k1, v1) :: rest, k, h => by
    rw [List.map_cons] at h
    rw [removeMap]
    by_cases h1 : k1 = k
    · rw [if_pos h1]; rfl
    · rcases List.mem_cons.mp h with h2 | h2
      · exact absurd h2.symm h1
      · rw [if_neg h1, List.length_cons, List.length_cons,
          removeMap_length_mem rest k h2]

theorem eraseFirst_not_mem :
    ∀ (o : List String) (k : String), k ∉ o → eraseFirst o k = o
  | [], k, _ => rfl
  | k1 :: rest, k, h => by
    have h1 : k1 ≠ k := fun hh => h (hh ▸ List.mem_cons_self _ _)
    have h2 : k ∉ rest := fun hh => h (List.mem_cons_of_mem _ hh)
    rw [eraseFirst, if_neg h1, eraseFirst_not_mem rest k h2]

theorem eraseFirst_mem_iff :
    ∀ (o : List String) (k : String) (k2 : String), o.Nodup →
      (k2 ∈ eraseFirst o k ↔ k2 ∈ o ∧ k2 ≠ k)
  | [], k, k2, _ => by simp [eraseFirst]
  | k1 :: rest, k, k2, hnd => by
    rw [List.nodup_cons] at hnd
    obtain ⟨hk1, hnd'⟩ := hnd
    rw [eraseFirst]
    by_cases h1 : k1 = k
    · subst h1
      rw [if_pos rfl]
      simp only [List.mem_cons]
      constructor
      · intro h
        exact ⟨Or.inr h, fun hh => hk1 (hh ▸ h)⟩
      · rintro ⟨rfl | h, hne⟩
        · exact absurd rfl hne
        · exact h
    · rw [if_neg h1]
      simp only [List.mem_cons]
      rw [eraseFirst_mem_iff rest k k2 hnd']
      constructor
      · rintro (rfl | ⟨h, hne⟩)
        · exact ⟨Or.inl rfl, fun hh => h1 hh⟩
        · exact ⟨Or.inr h, hne⟩
      · rintro ⟨rfl | h, hne⟩
        · exact Or.inl rfl
        · exact Or.inr ⟨h, hne⟩

theorem eraseFirst_nodup :
    ∀ (o : List String) (k : String), o.Nodup → (eraseFirst o k).Nodup
  | [], k, _ => by simp [eraseFirst]
  | k1 :: rest, k, hnd => by
    rw [List.nodup_cons] at hnd
    obtain ⟨hk1, hnd'⟩ := hnd
    rw [eraseFirst]
    by_cases h1 : k1 = k
    · rw [if_pos h1]; exact hnd'
    · rw [if_neg h1, List.nodup_cons]
      refine ⟨?_, eraseFirst_nodup rest k hnd'⟩
      intro hmem
      exact hk1 ((eraseFirst_mem_iff rest k k1 hnd').mp hmem).1

theorem eraseFirst_length_mem :
    ∀ (o : List String) (k : String), k ∈ o → (eraseFirst o k).length + 1 = o.length
  | [], k, h => by simp at h
  | k1 :: rest, k, h => by
    rw [eraseFirst]
    by_cases h1 : k1 = k
    · rw [if_pos h1]; rfl
    · rw [if_neg h1, List.length_cons, List.length_cons,
        eraseFirst_length_mem rest k ?_]
      rcases List.mem_cons.mp h with h2 | h2
      · exact absurd h2.symm h1
      · exact h2

theorem evictOldest_of_le {A : Type} (mx : Nat) :
    ∀ (o : List String) (m : List (String × A)),
      o.length ≤ mx → evictOldest mx o m = (o, m)
  | [], m, _ => rfl
  | x :: rest, m, h => by
    rw [evictOldest, if_neg (by omega : ¬ mx < (x :: rest).length)]

theorem evictOldest_step {A : Type} (mx : Nat) (x : String) (o : List String)
    (m : List (String × A)) (h : mx < (x :: o).length) :
    evictOldest mx (x :: o) m = evictOldest mx o (removeMap m x) := by
  rw [evictOldest, if_pos h]

theorem evictOldest_inv {A : Type} (mx : Nat) :
    ∀ (o : List String) (m : List (String × A)),
      o.Nodup → (m.map Prod.fst).Nodup → (∀ k, k ∈ o ↔ k ∈ m.map Prod.fst) →
      o.length = m.length →
      ((evictOldest mx o m).1.Nodup ∧
       ((evictOldest mx o m).2.map Prod.fst).Nodup ∧
       (∀ k, k ∈ (evictOldest mx o m).1 ↔ k ∈ (evictOldest mx o m).2.map Prod.fst) ∧
       (evictOldest mx o m).1.length = (evictOldest mx o m).2.length ∧
       (evictOldest mx o m).1.length ≤ mx)
  | [], m, hno, hnm, hmem, hlen => by
    rw [evictOldest]
    exact ⟨hno, hnm, hmem, hlen, Nat.zero_le mx⟩
  | oldest :: rest, m, hno, hnm, hmem, hlen => by
    by_cases hgt : mx < (oldest :: rest).length
    · rw [evictOldest_step mx oldest rest m hgt]
      rw [List.nodup_cons] at hno
      obtain ⟨hold, hno'⟩ := hno
      have holdm : oldest ∈ m.map Prod.fst := (hmem oldest).mp (List.mem_cons_self _ _)
      refine evictOldest_inv mx rest (removeMap m oldest) hno'
        (removeMap_keys_nodup m oldest hnm) ?_ ?_
      · intro k
        rw [removeMap_keys_mem m oldest k hnm]
        constructor
        · intro hk
          exact ⟨(hmem k).mp (List.mem_cons_of_mem _ hk), fun hh => hold (hh ▸ hk)⟩
        · rintro ⟨hk, hne⟩
          rcases List.mem_cons.mp ((hmem k).mpr hk) with rfl | hk2
          · exact absurd rfl hne
          · exact hk2
      · have := removeMap_length_mem m oldest holdm
        simp only [List.length_cons] at hlen
        omega
    · rw [evictOldest_of_le mx (oldest :: rest) m (Nat.le_of_not_lt hgt)]
      exact ⟨hno, hnm, hmem, hlen, Nat.le_of_not_lt hgt⟩

theorem touch_cacheInv {A : Type} (c : DownstreamCache A) (key : String)
    (h : cacheInv c) (hkey : key ∈ c.order) : cacheInv (c.touch key) := by
  obtain ⟨hmx, hno, hnm, hmem, hlen, hcap⟩ := h
  have herased : ∀ k, k ∈ eraseFirst c.order key ↔ k ∈ c.order ∧ k ≠ key :=
    fun k => eraseFirst_mem_iff c.order key k hno
  have hkn : key ∉ eraseFirst c.order key := fun hh => ((herased key).mp hh).2 rfl
  have hlen2 : (eraseFirst c.order key).length + 1 = c.order.length :=
    eraseFirst_length_mem c.order key hkey
  refine ⟨hmx, ?_, hnm, ?_, ?_, ?_⟩
  · exact List.Nodup.append (eraseFirst_nodup c.order key hno) (List.nodup_singleton key)
      (fun a ha hb => hkn ((List.mem_singleton.mp hb) ▸ ha))
  · intro k
    show k ∈ eraseFirst c.order key ++ [key] ↔ _
    rw [List.mem_append, List.mem_singleton, herased k]
    constructor
    · rintro (⟨hk, _⟩ | rfl)
      · exact (hmem k).mp hk
      · exact (hmem _).mp hkey
    · intro hk
      by_cases hkk : k = key
      · exact Or.inr hkk
      · exact Or.inl ⟨(hmem k).mpr hk, hkk⟩
  · show (eraseFirst c.order key ++ [key]).length = c.map.length
    rw [List.length_append]
    simp only [List.length_singleton]
    omega
  · show (eraseFirst c.order key ++ [key]).length ≤ c.max_crates
    rw [List.length_append]
    simp only [List.length_singleton]
    omega

theorem insert_cacheInv {A : Type} (c : DownstreamCache A) (key : String) (v : A)
    (h : cacheInv c) : cacheInv (c.insert key v) := by
  obtain ⟨hmx, hno, hnm, hmem, hlen, hcap⟩ := h
  have hmap1nd : ((insertMap c.map key v).map Prod.fst).Nodup :=
    insertMap_keys_nodup c.map key v hnm
  by_cases hkey : key ∈ c.map.map Prod.fst
  · -- replacing an existing binding; the touch and eviction keep sizes
    have hkeyo : key ∈ c.order := (hmem key).mpr hkey
    have hlen1 : (insertMap c.map key v).length = c.map.length :=
      insertMap_length_mem c.map key v hkey
    have herased : ∀ k, k ∈ eraseFirst c.order key ↔ k ∈ c.order ∧ k ≠ key :=
      fun k => eraseFirst_mem_iff c.order key k hno
    have hkn : key ∉ eraseFirst c.order key := fun hh => ((herased key).mp hh).2 rfl
    have hlen2 : (eraseFirst c.order key).length + 1 = c.order.length :=
      eraseFirst_length_mem c.order key hkeyo
    have hord_nodup : (eraseFirst c.order key ++ [key]).Nodup :=
      List.Nodup.append (eraseFirst_nodup c.order key hno) (List.nodup_singleton key)
        (fun a ha hb => hkn ((List.mem_singleton.mp hb) ▸ ha))
    have hmem1 : ∀ k, k ∈ eraseFirst c.order key ++ [key] ↔
        k ∈ (insertMap c.map key v).map Prod.fst := by
      intro k
      rw [List.mem_append, List.mem_singleton, herased k, insertMap_keys_mem c.map key v k]
      constructor
      · rintro (⟨hk, _⟩ | rfl)
        · exact Or.inr ((hmem k).mp hk)
        · exact Or.inl rfl
      · rintro (rfl | hk)
        · exact Or.inr rfl
        · by_cases hkk : k = key
          · exact Or.inr hkk
          · exact Or.inl ⟨(hmem k).mpr hk, hkk⟩
    have hlen3 : (eraseFirst c.order key ++ [key]).length = (insertMap c.map key v).length := by
      rw [List.length_append]
      simp only [List.length_singleton]
      omega
    obtain ⟨e1, e2, e3, e4, e5⟩ := evictOldest_inv c.max_crates
      (eraseFirst c.order key ++ [key]) (insertMap c.map key v)
      hord_nodup hmap1nd hmem1 hlen3
    exact ⟨hmx, e1, e2, e3, e4, e5⟩
  · -- a genuinely new key
    have hkeyo : key ∉ c.order := fun hh => hkey ((hmem key).mp hh)
    have hlen1 : (insertMap c.map key v).length = c.map.length + 1 :=
      insertMap_length_new c.map key v hkey
    have hord : eraseFirst c.order key ++ [key] = c.order ++ [key] := by
      rw [eraseFirst_not_mem c.order key hkeyo]
    have hord_nodup : (c.order ++ [key]).Nodup :=
      List.Nodup.append hno (List.nodup_singleton key)
        (fun a ha hb => hkeyo ((List.mem_singleton.mp hb) ▸ ha))
    have hmem1 : ∀ k, k ∈ c.order ++ [key] ↔ k ∈ (insertMap c.map key v).map Prod.fst := by
      intro k
      rw [List.mem_append, List.mem_singleton, insertMap_keys_mem c.map key v k]
      constructor
      · rintro (hk | rfl)
        · exact Or.inr ((hmem k).mp hk)
        · exact Or.inl rfl
      · rintro (rfl | hk)
        · exact Or.inr rfl
        · exact Or.inl ((hmem k).mpr hk)
    have hlen3 : (c.order ++ [key]).length = (insertMap c.map key v).length := by
      rw [List.length_append]
      simp only [List.length_singleton]
      omega
    obtain ⟨e1, e2, e3, e4, e5⟩ := evictOldest_inv c.max_crates
      (eraseFirst c.order key ++ [key]) (insertMap c.map key v)
      (hord ▸ hord_nodup) hmap1nd (hord ▸ hmem1) (hord ▸ hlen3)
    exact ⟨hmx, e1, e2, e3, e4, e5⟩

theorem get_or_fetch_cacheInv {A : Type} (fetch : String → A) (c : DownstreamCache A)
    (key : String) (h : cacheInv c) : cacheInv (c.get_or_fetch fetch key).1 := by
  rw [DownstreamCache.get_or_fetch]
  cases hl : lookupMap c.map key with
  | some v =>
    have hkeyo : key ∈ c.order := by
      refine (h.2.2.2.1 key).mpr ?_
      by_contra hnot
      rw [(lookupMap_eq_none_iff c.map key).mpr hnot] at hl
      cases hl
    exact touch_cacheInv c key h hkeyo
  | none => exact insert_cacheInv c key (fetch key) h

theorem runCacheOps_cacheInv {A : Type} (fetch : String → A) :
    ∀ (ops : List String) (c : DownstreamCache A),
      cacheInv c → cacheInv (runCacheOps fetch c ops)
  | [], c, h => h
  | key :: rest, c, h => by
    rw [runCacheOps]
    exact runCacheOps_cacheInv fetch rest _ (get_or_fetch_cacheInv fetch c key h)

theorem new_cacheInv (A : Type) (n : Nat) : cacheInv (DownstreamCache.new A n) := by
  refine ⟨?_, List.nodup_nil, List.nodup_nil, ?_, rfl, ?_⟩
  · show 1 ≤ max n 1
    omega
  · intro k
    simp [DownstreamCache.new]
  · show (0 : Nat) ≤ max n 1
    omega

theorem get_or_fetch_max_crates {A : Type} (fetch : String → A) (c : DownstreamCache A)
    (key : String) : (c.get_or_fetch fetch key).1.max_crates = c.max_crates := by
  rw [DownstreamCache.get_or_fetch]
  cases lookupMap c.map key with
  | some v => rfl
  | none => rfl

theorem runCacheOps_max_crates {A : Type} (fetch : String → A) :
    ∀ (ops : List String) (c : DownstreamCache A),
      (runCacheOps fetch c ops).max_crates = c.max_crates
  | [], c => rfl
  | key :: rest, c => by
    rw [runCacheOps, runCacheOps_max_crates fetch rest _, get_or_fetch_max_crates]

/-- C9 (amended: the constructor clamps the configured capacity to at least
one, so the bound is `max N 1`, not `N`): over any operation sequence the
cache never holds more than `max N 1` entries; the recency list is
duplicate-free and carries exactly the map's keys with matching sizes; a hit
only touches the key (no backing query, result taken from the map); a miss
delegates to the collaborator and inserts; and an insertion into a full
cache evicts exactly the least-recently-used key (the front of the recency
list). -/
theorem cache_lru_bounded_spec {A : Type} (fetch : String → A) (N : Nat)
    (ops : List String) :
    (runCacheOps fetch (DownstreamCache.new A N) ops).map.length ≤ max N 1 ∧
    (runCacheOps fetch (DownstreamCache.new A N) ops).order.Nodup ∧
    (∀ k, k ∈ (runCacheOps fetch (DownstreamCache.new A N) ops).order ↔
      k ∈ (runCacheOps fetch (DownstreamCache.new A N) ops).map.map Prod.fst) ∧
    (runCacheOps fetch (DownstreamCache.new A N) ops).order.length =
      (runCacheOps fetch (DownstreamCache.new A N) ops).map.length ∧
    (∀ key v, lookupMap (runCacheOps fetch (DownstreamCache.new A N) ops).map key = some v →
      (runCacheOps fetch (DownstreamCache.new A N) ops).get_or_fetch fetch key =
        ((runCacheOps fetch (DownstreamCache.new A N) ops).touch key, v)) ∧
    (∀ key, lookupMap (runCacheOps fetch (DownstreamCache.new A N) ops).map key = none →
      (runCacheOps fetch (DownstreamCache.new A N) ops).get_or_fetch fetch key =
        ((runCacheOps fetch (DownstreamCache.new A N) ops).insert key (fetch key), fetch key)) ∧
    (∀ key, lookupMap (runCacheOps fetch (DownstreamCache.new A N) ops).map key = none →
      (runCacheOps fetch (DownstreamCache.new A N) ops).map.length = max N 1 →
      ∃ lru rest, (runCacheOps fetch (DownstreamCache.new A N) ops).order = lru :: rest ∧
        ((runCacheOps fetch (DownstreamCache.new A N) ops).get_or_fetch fetch key).1.order =
          rest ++ [key] ∧
        ∀ k2, lookupMap
            ((runCacheOps fetch (DownstreamCache.new A N) ops).get_or_fetch fetch key).1.map k2 =
          if k2 = key then some (fetch key)
          else if k2 = lru then none
          else lookupMap (runCacheOps fetch (DownstreamCache.new A N) ops).map k2) := by
  have hmax : (runCacheOps fetch (DownstreamCache.new A N) ops).max_crates = max N 1 :=
    runCacheOps_max_crates fetch ops (DownstreamCache.new A N)
  obtain ⟨hmx, hno, hnm, hmem, hlen, hcap⟩ :=
    runCacheOps_cacheInv fetch ops (DownstreamCache.new A N) (new_cacheInv A N)
  set c := runCacheOps fetch (DownstreamCache.new A N) ops with hc
  refine ⟨by omega, hno, hmem, hlen, ?_, ?_, ?_⟩
  · intro key v hl
    rw [DownstreamCache.get_or_fetch, hl]
  · intro key hl
    rw [DownstreamCache.get_or_fetch, hl]
  · intro key hl hfull
    have hkeym : key ∉ c.map.map Prod.fst := (lookupMap_eq_none_iff c.map key).mp hl
    have hkeyo : key ∉ c.order := fun hh => hkeym ((hmem key).mp hh)
    have hlen1 : c.order.length = max N 1 := by omega
    obtain ⟨lru, rest, horder⟩ : ∃ lru rest, c.order = lru :: rest := by
      cases ho : c.order with
      | nil => rw [ho] at hlen1; simp at hlen1; omega
      | cons a b => exact ⟨a, b, rfl⟩
    have hlru_mem : lru ∈ c.order := horder ▸ List.mem_cons_self _ _
    have hlru_ne : lru ≠ key := fun hh => hkeyo (hh ▸ hlru_mem)
    have herase : eraseFirst c.order key = c.order := eraseFirst_not_mem c.order key hkeyo
    have hrestlen : c.order.length = rest.length + 1 := by rw [horder]; rfl
    have hlen2 : (rest ++ [key]).length ≤ c.max_crates := by
      rw [List.length_append]
      simp only [List.length_singleton]
      omega
    have hlen3 : c.max_crates < (lru :: (rest ++ [key])).length := by
      simp only [List.length_cons, List.length_append, List.length_singleton]
      omega
    have hev : evictOldest c.max_crates (eraseFirst c.order key ++ [key])
          (insertMap c.map key (fetch key)) =
        (rest ++ [key], removeMap (insertMap c.map key (fetch key)) lru) := by
      rw [herase, horder, List.cons_append, evictOldest_step _ _ _ _ hlen3,
        evictOldest_of_le _ _ _ hlen2]
    have hordereq : (c.insert key (fetch key)).order = rest ++ [key] := by
      show (evictOldest c.max_crates (eraseFirst c.order key ++ [key])
        (insertMap c.map key (fetch key))).1 = rest ++ [key]
      rw [hev]
    have hmapeq : (c.insert key (fetch key)).map =
        removeMap (insertMap c.map key (fetch key)) lru := by
      show (evictOldest c.max_crates (eraseFirst c.order key ++ [key])
        (insertMap c.map key (fetch key))).2 = _
      rw [hev]
    refine ⟨lru, rest, horder, ?_, ?_⟩
    · rw [DownstreamCache.get_or_fetch, hl]
      exact hordereq
    · intro k2
      rw [DownstreamCache.get_or_fetch, hl]
      show lookupMap (c.insert key (fetch key)).map k2 = _
      rw [hmapeq,
        lookup_removeMap _ lru k2 (insertMap_keys_nodup c.map key (fetch key) hnm),
        lookup_insertMap c.map key (fetch key) k2]
      have hkl : ¬ key = lru := fun hh => hlru_ne hh.symm
      by_cases h2 : k2 = key
      · by_cases h3 : k2 = lru
        · exact absurd (h2.symm.trans h3).symm hlru_ne
        · simp [h2, h3, hkl]
      · by_cases h3 : k2 = lru
        · simp [h2, h3, hlru_ne]
        · simp [h2, h3]

theorem cache_lru_bounded_spec_witness :
    lookupMap (runCacheOps (fun _ => (0 : Nat)) (DownstreamCache.new Nat 1) ["a"]).map "b" =
      none ∧
    (runCacheOps (fun _ => (0 : Nat)) (DownstreamCache.new Nat 1) ["a"]).map.length = max 1 1 ∧
    (∃ lru rest,
      (runCacheOps (fun _ => (0 : Nat)) (DownstreamCache.new Nat 1) ["a"]).order = lru :: rest ∧
      ((runCacheOps (fun _ => (0 : Nat)) (DownstreamCache.new Nat 1) ["a"]).get_or_fetch
        (fun _ => (0 : Nat)) "b").1.order = rest ++ ["b"] ∧
      ∀ k2, lookupMap ((runCacheOps (fun _ => (0 : Nat))
          (DownstreamCache.new Nat 1) ["a"]).get_or_fetch (fun _ => (0 : Nat)) "b").1.map k2 =
        if k2 = "b" then some 0
        else if k2 = lru then none
        else lookupMap (runCacheOps (fun _ => (0 : Nat)) (DownstreamCache.new Nat 1) ["a"]).map k2) :=
  ⟨by decide, by decide,
    (cache_lru_bounded_spec (fun _ => (0 : Nat)) 1 ["a"]).2.2.2.2.2.2 "b" (by decide) (by decide)⟩

/-- C9 counterexample to the claim as stated: with configured capacity
`N = 0` the constructor clamps to capacity 1, so after one `get_or_fetch`
the cache holds one entry — more than `N = 0`. -/
theorem cache_capacity_zero_counterexample :
    (runCacheOps (fun _ => (0 : Nat)) (DownstreamCache.new Nat 0) ["a"]).map.length = 1 := by
  decide

theorem dedupFirstAux_mem :
    ∀ (l seen : List String) (x : String),
      x ∈ dedupFirstAux l seen ↔ x ∈ l ∧ x ∉ seen
  | [], seen, x => by simp [dedupFirstAux]
  | n :: rest, seen, x => by
    rw [dedupFirstAux]
    split_ifs with hmem
    · rw [dedupFirstAux_mem rest seen x]
      simp only [List.mem_cons]
      constructor
      · rintro ⟨hx, hs⟩
        exact ⟨Or.inr hx, hs⟩
      · rintro ⟨rfl | hx, hs⟩
        · exact absurd hmem hs
        · exact ⟨hx, hs⟩
    · rw [List.mem_cons, dedupFirstAux_mem rest (n :: seen) x]
      simp only [List.mem_cons]
      constructor
      · rintro (rfl | ⟨hx, hs⟩)
        · exact ⟨Or.inl rfl, hmem⟩
        · exact ⟨Or.inr hx, fun hh => hs (Or.inr hh)⟩
      · rintro ⟨rfl | hx, hs⟩
        · exact Or.inl rfl
        · by_cases hxn : x = n
          · exact Or.inl hxn
          · exact Or.inr ⟨hx, fun hh => hh.elim hxn hs⟩

theorem dedupFirst_mem (l : List String) (x : String) : x ∈ dedupFirst l ↔ x ∈ l := by
  rw [dedupFirst, dedupFirstAux_mem]
  simp

theorem groupByCrate_mem_iff (rows : List DownstreamVersionInfo)
    (g : String × List DownstreamVersionInfo) :
    g ∈ groupByCrate rows ↔
      g.1 ∈ rows.map (·.crate_name) ∧
        g.2 = rows.filter (fun r => r.crate_name == g.1) := by
  unfold groupByCrate
  rw [List.mem_map]
  constructor
  · rintro ⟨n, hn, rfl⟩
    exact ⟨(dedupFirst_mem _ n).mp hn, rfl⟩
  · rintro ⟨hmem, hg2⟩
    exact ⟨g.1, (dedupFirst_mem _ g.1).mpr hmem, by rw [← hg2]⟩

theorem adoptionScanFix_eq_find {V R : Type} [LinearOrder V] (lib : SemverLib V R)
    (fv : V) (ft : Int) (crate : String) :
    ∀ hist : List DownstreamVersionInfo,
      adoptionScanFix lib fv ft crate hist =
        match hist.find? (adoptionQualifies lib fv ft) with
        | none => none
        | some item =>
          match lib.parseVersion item.version with
          | none => none
          | some v =>
            some ⟨crate, v, item.created_at, num_days (item.created_at - ft), item.dep_req⟩
  | [] => rfl
  | item :: rest => by
    rw [adoptionScanFix, List.find?]
    by_cases hq : adoptionQualifies lib fv ft item = true
    · rw [hq]
      obtain ⟨hge, hfix⟩ := (Bool.and_eq_true _ _).mp hq
      rw [if_neg (by simpa using of_decide_eq_true hge), if_pos hfix]
    · rw [Bool.not_eq_true] at hq
      rw [hq]
      by_cases hlt : item.created_at < ft
      · rw [if_pos hlt, adoptionScanFix_eq_find lib fv ft crate rest]
      · have hfix : ¬ is_explicitly_fixed lib item.dep_req fv = true := by
          intro hf
          have : adoptionQualifies lib fv ft item = true :=
            (Bool.and_eq_true _ _).mpr ⟨decide_eq_true (le_of_not_lt hlt), hf⟩
          rw [this] at hq
          cases hq
        rw [if_neg hlt, if_neg hfix, adoptionScanFix_eq_find lib fv ft crate rest]

theorem adoptionEventForGroup_crate {V R : Type} [LinearOrder V] (lib : SemverLib V R)
    (fv : V) (ft : Int) (g : String × List DownstreamVersionInfo) (ev : AdoptionEvent V)
    (h : adoptionEventForGroup lib fv ft g = some ev) : ev.downstream_crate = g.1 := by
  replace h : (match lastBeforeFix ft (sortObs g.2) with
      | none => none
      | some last_before =>
        if is_ever_affected lib last_before.dep_req fv = true then
          adoptionScanFix lib fv ft g.1 (sortObs g.2)
        else none) = some ev := h
  cases hlb : lastBeforeFix ft (sortObs g.2) with
  | none => rw [hlb] at h; cases h
  | some lb =>
    rw [hlb] at h
    dsimp only at h
    split_ifs at h with ha
    rw [adoptionScanFix_eq_find lib fv ft g.1 (sortObs g.2)] at h
    cases hf : (sortObs g.2).find? (adoptionQualifies lib fv ft) with
    | none => rw [hf] at h; cases h
    | some item =>
      rw [hf] at h
      dsimp only at h
      cases hp : lib.parseVersion item.version with
      | none => rw [hp] at h; cases h
      | some v =>
        rw [hp] at h
        cases Option.some_inj.mp h
        rfl

theorem adoptionEventForGroup_shape {V R : Type} [LinearOrder V] (lib : SemverLib V R)
    (fv : V) (ft : Int) (g : String × List DownstreamVersionInfo) (ev : AdoptionEvent V)
    (h : adoptionEventForGroup lib fv ft g = some ev) :
    (∃ lb, lastBeforeFix ft (sortObs g.2) = some lb ∧
      is_ever_affected lib lb.dep_req fv = true) ∧
    ∃ item v, (sortObs g.2).find? (adoptionQualifies lib fv ft) = some item ∧
      lib.parseVersion item.version = some v ∧
      ev = ⟨g.1, v, item.created_at, num_days (item.created_at - ft), item.dep_req⟩ := by
  replace h : (match lastBeforeFix ft (sortObs g.2) with
      | none => none
      | some last_before =>
        if is_ever_affected lib last_before.dep_req fv = true then
          adoptionScanFix lib fv ft g.1 (sortObs g.2)
        else none) = some ev := h
  cases hlb : lastBeforeFix ft (sortObs g.2) with
  | none => rw [hlb] at h; cases h
  | some lb =>
    rw [hlb] at h
    dsimp only at h
    split_ifs at h with ha
    rw [adoptionScanFix_eq_find lib fv ft g.1 (sortObs g.2)] at h
    cases hf : (sortObs g.2).find? (adoptionQualifies lib fv ft) with
    | none => rw [hf] at h; cases h
    | some item =>
      rw [hf] at h
      dsimp only at h
      cases hp : lib.parseVersion item.version with
      | none => rw [hp] at h; cases h
      | some v =>
        rw [hp] at h
        exact ⟨⟨lb, rfl, ha⟩, item, v, rfl, hp, (Option.some_inj.mp h).symm⟩

theorem adoptionEventForGroup_of_conditions {V R : Type} [LinearOrder V] (lib : SemverLib V R)
    (fv : V) (ft : Int) (g : String × List DownstreamVersionInfo)
    (lb : DownstreamVersionInfo) (item : DownstreamVersionInfo) (v : V)
    (hlb : lastBeforeFix ft (sortObs g.2) = some lb)
    (ha : is_ever_affected lib lb.dep_req fv = true)
    (hf : (sortObs g.2).find? (adoptionQualifies lib fv ft) = some item)
    (hp : lib.parseVersion item.version = some v) :
    adoptionEventForGroup lib fv ft g =
      some ⟨g.1, v, item.created_at, num_days (item.created_at - ft), item.dep_req⟩ := by
  show (match lastBeforeFix ft (sortObs g.2) with
      | none => none
      | some last_before =>
        if is_ever_affected lib last_before.dep_req fv = true then
          adoptionScanFix lib fv ft g.1 (sortObs g.2)
        else none) =
    some ⟨g.1, v, item.created_at, num_days (item.created_at - ft), item.dep_req⟩
  rw [hlb]
  dsimp only
  rw [if_pos ha, adoptionScanFix_eq_find lib fv ft g.1 (sortObs g.2), hf]
  dsimp only
  rw [hp]

theorem insertObs_perm (x : DownstreamVersionInfo) (l : List DownstreamVersionInfo) :
    List.Perm (insertObs x l) (x :: l) := by
  induction l with
  | nil => exact List.Perm.refl _
  | cons y ys ih =>
    rw [insertObs]
    split_ifs
    · exact List.Perm.refl _
    · exact List.Perm.trans (List.Perm.cons y ih) (List.Perm.swap x y ys)

theorem sortObs_perm (l : List DownstreamVersionInfo) :
    List.Perm (sortObs l) l := by
  induction l with
  | nil => exact List.Perm.refl _
  | cons x xs ih =>
    rw [sortObs]
    exact List.Perm.trans (insertObs_perm x (sortObs xs)) (List.Perm.cons x ih)

/-- C5 (amended: the source `break`s without emitting when the first
qualifying observation's version string does not parse, so the emission
condition additionally requires that parse to succeed): for each downstream
crate, at most one adoption event is emitted per carrier; an event is
emitted exactly when (a) the crate's last sorted observation strictly before
the fix time exists and is ever-affected, and (b) the first sorted
observation at or after the fix time whose estimated minimum is at or above
the fix version exists and its version string parses; and the event is built
from that first qualifying observation. -/
theorem adoption_events_characterization {V R : Type} [LinearOrder V]
    (lib : SemverLib V R) (fv : V) (ft : Int)
    (downstream : List DownstreamVersionInfo) (n : String) :
    ((compute_adoption_events_for_target lib fv ft downstream).filter
        (fun e => e.downstream_crate == n)).length ≤ 1 ∧
    (((compute_adoption_events_for_target lib fv ft downstream).filter
        (fun e => e.downstream_crate == n)) ≠ [] ↔
      ((∃ lb, lastBeforeFix ft
          (sortObs (downstream.filter (fun r => r.crate_name == n))) = some lb ∧
        is_ever_affected lib lb.dep_req fv = true) ∧
       (∃ item, (sortObs (downstream.filter (fun r => r.crate_name == n))).find?
          (adoptionQualifies lib fv ft) = some item ∧
        (lib.parseVersion item.version).isSome = true))) ∧
    (∀ ev ∈ (compute_adoption_events_for_target lib fv ft downstream).filter
        (fun e => e.downstream_crate == n),
      ∃ item v, (sortObs (downstream.filter (fun r => r.crate_name == n))).find?
          (adoptionQualifies lib fv ft) = some item ∧
        lib.parseVersion item.version = some v ∧
        ev = ⟨n, v, item.created_at, num_days (item.created_at - ft), item.dep_req⟩) := by
  refine ⟨?_, ⟨?_, ?_⟩, ?_⟩
  · unfold compute_adoption_events_for_target
    exact filterMap_keyed_count_le_one (adoptionEventForGroup lib fv ft) Prod.fst
      (fun ev => ev.downstream_crate) (groupByCrate downstream)
      (groupByCrate_keys_nodup downstream)
      (fun g ev _ h => adoptionEventForGroup_crate lib fv ft g ev h) n
  · intro hne
    obtain ⟨ev, hev⟩ := List.exists_mem_of_ne_nil _ hne
    have hevc : ev ∈ compute_adoption_events_for_target lib fv ft downstream :=
      List.mem_of_mem_filter hev
    have hevn : ev.downstream_crate = n := eq_of_beq (List.mem_filter.mp hev).2
    obtain ⟨g, hg, hfg⟩ := List.mem_filterMap.mp hevc
    have hg1 : g.1 = n := (adoptionEventForGroup_crate lib fv ft g ev hfg) ▸ hevn
    obtain ⟨_, hg2⟩ := (groupByCrate_mem_iff downstream g).mp hg
    rw [hg1] at hg2
    obtain ⟨hlbpart, item, v, hfind, hparse, _⟩ :=
      adoptionEventForGroup_shape lib fv ft g ev hfg
    rw [hg2] at hlbpart hfind
    exact ⟨hlbpart, item, hfind, by rw [hparse]; rfl⟩
  · rintro ⟨⟨lb, hlb, ha⟩, item, hfind, hps⟩
    obtain ⟨v, hparse⟩ := Option.isSome_iff_exists.mp hps
    have hitem : item ∈ sortObs (downstream.filter (fun r => r.crate_name == n)) :=
      List.mem_of_find?_eq_some hfind
    have hitem2 : item ∈ downstream.filter (fun r => r.crate_name == n) :=
      (sortObs_perm _).mem_iff.mp hitem
    have hitemds : item ∈ downstream := List.mem_of_mem_filter hitem2
    have hitemn : item.crate_name = n := eq_of_beq (List.mem_filter.mp hitem2).2
    have hnmem : n ∈ downstream.map (·.crate_name) :=
      List.mem_map.mpr ⟨item, hitemds, hitemn⟩
    have hg : (n, downstream.filter (fun r => r.crate_name == n)) ∈ groupByCrate downstream :=
      (groupByCrate_mem_iff downstream _).mpr ⟨hnmem, rfl⟩
    have hfg := adoptionEventForGroup_of_conditions lib fv ft
      (n, downstream.filter (fun r => r.crate_name == n)) lb item v hlb ha hfind hparse
    have hevc : (⟨n, v, item.created_at, num_days (item.created_at - ft), item.dep_req⟩ :
        AdoptionEvent V) ∈ compute_adoption_events_for_target lib fv ft downstream :=
      List.mem_filterMap.mpr ⟨_, hg, hfg⟩
    refine List.ne_nil_of_mem (List.mem_filter.mpr ⟨hevc, ?_⟩)
    exact beq_iff_eq.mpr rfl
  · intro ev hev
    have hevc : ev ∈ compute_adoption_events_for_target lib fv ft downstream :=
      List.mem_of_mem_filter hev
    have hevn : ev.downstream_crate = n := eq_of_beq (List.mem_filter.mp hev).2
    obtain ⟨g, hg, hfg⟩ := List.mem_filterMap.mp hevc
    have hg1 : g.1 = n := (adoptionEventForGroup_crate lib fv ft g ev hfg) ▸ hevn
    obtain ⟨_, hg2⟩ := (groupByCrate_mem_iff downstream g).mp hg
    rw [hg1] at hg2
    obtain ⟨_, item, v, hfind, hparse, hshape⟩ :=
      adoptionEventForGroup_shape lib fv ft g ev hfg
    rw [hg2] at hfind
    rw [hg1] at hshape
    exact ⟨item, v, hfind, hparse, hshape⟩

/-- C5 counterexample to the claim as stated: crate `d` is ever-affected
before the fix and has a qualifying (estimated-minimum at or above the fix)
observation after it, yet no adoption event is emitted, because that first
qualifying observation's version string does not parse and the scan
`break`s. -/
theorem adoption_events_claim_counterexample :
    lastBeforeFix 0 (sortObs witDS2) = some ⟨"d", "0.1.0", -10, "^0.9"⟩ ∧
    is_ever_affected witLib "^0.9" 100 = true ∧
    (sortObs witDS2).any (adoptionQualifies witLib 100 0) = true ∧
    compute_adoption_events_for_target witLib 100 0 witDS2 = [] := by
  decide

theorem adoption_events_characterization_witness :
    (⟨"d", 20, 864000, 10, "^1.0.1"⟩ : AdoptionEvent Nat) ∈
      (compute_adoption_events_for_target witLib 101 0 witDS).filter
        (fun e => e.downstream_crate == "d") ∧
    (∃ item v, (sortObs (witDS.filter (fun r => r.crate_name == "d"))).find?
        (adoptionQualifies witLib 101 0) = some item ∧
      witLib.parseVersion item.version = some v ∧
      (⟨"d", 20, 864000, 10, "^1.0.1"⟩ : AdoptionEvent Nat) =
        ⟨"d", v, item.created_at, num_days (item.created_at - 0), item.dep_req⟩) :=
  ⟨by decide,
    (adoption_events_characterization witLib 101 0 witDS "d").2.2
      ⟨"d", 20, 864000, 10, "^1.0.1"⟩ (by decide)⟩

theorem cbLoop_group {V R : Type} (lib : SemverLib V R) (vuln fixed : List V) (ft : Int) :
    ∀ (rows rest : List DownstreamVersionInfo) (name : String)
      (lb : Option DownstreamVersionInfo) (c : ConstraintBreakdown),
      (∀ r ∈ rows, r.crate_name = name) →
      cbLoop lib vuln fixed ft (rows ++ rest) (some name) lb c =
        cbLoop lib vuln fixed ft rest (some name)
          (rows.foldl (fun acc r => if r.created_at < ft then some r else acc) lb) c
  | [], rest, name, lb, c, _ => rfl
  | row :: rows, rest, name, lb, c, hnames => by
    rw [List.cons_append, cbLoop, if_pos (hnames row (List.mem_cons_self _ _)).symm]
    rw [cbLoop_group lib vuln fixed ft rows rest name _ c
      (fun r hr => hnames r (List.mem_cons_of_mem _ hr))]
    rfl

theorem foldl_lastBefore (ft : Int) :
    ∀ (rows : List DownstreamVersionInfo) (lb : Option DownstreamVersionInfo),
      rows.foldl (fun acc r => if r.created_at < ft then some r else acc) lb =
        match (rows.filter (fun r => decide (r.created_at < ft))).getLast? with
        | some x => some x
        | none => lb
  | [], lb => rfl
  | row :: rows, lb => by
    rw [List.foldl_cons, foldl_lastBefore ft rows _, List.filter_cons]
    by_cases hlt : row.created_at < ft
    · rw [if_pos hlt, if_pos (decide_eq_true hlt)]
      cases hfl : rows.filter (fun r => decide (r.created_at < ft)) with
      | nil => rfl
      | cons y ys =>
        rw [List.getLast?_cons_cons]
        cases hgl : (y :: ys).getLast? with
        | none => exact absurd (List.getLast?_eq_none_iff.mp hgl) (List.cons_ne_nil y ys)
        | some x => rfl
    · rw [if_neg hlt, if_neg (by simpa using hlt)]

theorem cbLoop_groups {V R : Type} (lib : SemverLib V R) (vuln fixed : List V) (ft : Int) :
    ∀ (groups : List (String × List DownstreamVersionInfo)) (cur : Option String)
      (lb : Option DownstreamVersionInfo) (c : ConstraintBreakdown),
      (∀ g ∈ groups, g.2 ≠ [] ∧ ∀ r ∈ g.2, r.crate_name = g.1) →
      List.Chain' (fun a b => a.1 ≠ b.1) groups →
      (match cur, groups with
       | some m, g :: _ => m ≠ g.1
       | none, _ => lb = none
       | _, [] => True) →
      cbLoop lib vuln fixed ft ((groups.map Prod.snd).flatten) cur lb c =
        groups.foldl
          (fun acc g => cbProcess lib vuln fixed (groupLastBefore ft g.2) acc)
          (cbProcess lib vuln fixed lb c)
  | [], cur, lb, c, _, _, hcur => by
    cases cur with
    | none =>
      have : lb = none := hcur
      rw [this]
      rfl
    | some m => rfl
  | (n, rows) :: groups, cur, lb, c, hg, hadj, hcur => by
    obtain ⟨hne, hnames⟩ := hg (n, rows) (List.mem_cons_self _ _)
    obtain ⟨r0, rows', hrows⟩ : ∃ r0 rows', rows = r0 :: rows' := by
      cases rows with
      | nil => exact absurd rfl hne
      | cons a b => exact ⟨a, b, rfl⟩
    subst hrows
    have hr0 : r0.crate_name = n := hnames r0 (List.mem_cons_self _ _)
    have hmid : cbLoop lib vuln fixed ft
        ((r0 :: rows') ++ (groups.map Prod.snd).flatten) cur lb c =
        cbLoop lib vuln fixed ft
          (rows' ++ (groups.map Prod.snd).flatten) (some n)
          (if r0.created_at < ft then some r0 else none)
          (cbProcess lib vuln fixed lb c) := by
      cases cur with
      | none =>
        have hlbnone : lb = none := hcur
        rw [List.cons_append, cbLoop, hr0, hlbnone]
        rfl
      | some m =>
        have hmn : m ≠ n := hcur
        rw [List.cons_append, cbLoop, hr0, if_neg hmn]
    have hflat : ((((n, r0 :: rows') :: groups).map Prod.snd).flatten) =
        (r0 :: rows') ++ (groups.map Prod.snd).flatten := rfl
    rw [hflat, hmid,
      cbLoop_group lib vuln fixed ft rows' _ n _ _
        (fun r hr => hnames r (List.mem_cons_of_mem _ hr)),
      foldl_lastBefore ft rows' _]
    have hlbeq : (match (rows'.filter (fun r => decide (r.created_at < ft))).getLast? with
        | some x => some x
        | none => if r0.created_at < ft then some r0 else none) =
        groupLastBefore ft (r0 :: rows') := by
      rw [groupLastBefore, List.filter_cons]
      by_cases hlt : r0.created_at < ft
      · rw [if_pos (decide_eq_true hlt), if_pos hlt]
        cases hfl : rows'.filter (fun r => decide (r.created_at < ft)) with
        | nil => rfl
        | cons y ys =>
          rw [List.getLast?_cons_cons]
          cases hgl : (y :: ys).getLast? with
          | none => exact absurd (List.getLast?_eq_none_iff.mp hgl) (List.cons_ne_nil y ys)
          | some x => rfl
      · have hdec : ¬(decide (r0.created_at < ft) = true) := by simpa using hlt
        rw [if_neg hlt, if_neg hdec]
        cases hgl : (rows'.filter (fun r => decide (r.created_at < ft))).getLast? with
        | none => rfl
        | some x => rfl
    rw [hlbeq,
      cbLoop_groups lib vuln fixed ft groups (some n) (groupLastBefore ft (r0 :: rows'))
        (cbProcess lib vuln fixed lb c)
        (fun g hgm => hg g (List.mem_cons_of_mem _ hgm))
        (List.Chain'.tail hadj) ?_]
    · rfl
    · cases groups with
      | nil => trivial
      | cons g2 gs =>
        exact (List.chain'_cons.mp hadj).1

theorem cbProcess_counts {V R : Type} (lib : SemverLib V R) (vuln fixed : List V)
    (ft : Int) (g : List DownstreamVersionInfo) (c : ConstraintBreakdown) :
    (cbProcess lib vuln fixed (groupLastBefore ft g) c).affected_edges =
      c.affected_edges + (if groupAffectedB lib vuln ft g then 1 else 0) ∧
    (cbProcess lib vuln fixed (groupLastBefore ft g) c).locked_out_edges =
      c.locked_out_edges + (if groupLockedB lib vuln fixed ft g then 1 else 0) := by
  cases hlb : groupLastBefore ft g with
  | none => simp [cbProcess, groupAffectedB, groupLockedB, hlb]
  | some lb =>
    cases hp : lib.parseReq lb.dep_req with
    | none => simp [cbProcess, groupAffectedB, groupLockedB, hlb, hp]
    | some req =>
      by_cases hv : vuln.any (fun v => lib.reqMatches req v) = true
      · by_cases hfx : fixed.any (fun v => lib.reqMatches req v) = true
        · cases hshape : classify_req_shape lb.dep_req <;>
            simp [cbProcess, groupAffectedB, groupLockedB, hlb, hp, hv, hfx, hshape]
        · cases hshape : classify_req_shape lb.dep_req <;>
            simp [cbProcess, groupAffectedB, groupLockedB, hlb, hp, hv, hfx, hshape]
      · simp [cbProcess, groupAffectedB, groupLockedB, hlb, hp, hv]

theorem foldl_cbProcess_counts {V R : Type} (lib : SemverLib V R) (vuln fixed : List V)
    (ft : Int) :
    ∀ (groups : List (String × List DownstreamVersionInfo)) (c : ConstraintBreakdown),
      ((groups.foldl
        (fun acc g => cbProcess lib vuln fixed (groupLastBefore ft g.2) acc) c).affected_edges =
        c.affected_edges +
          (groups.filter (fun g => groupAffectedB lib vuln ft g.2)).length) ∧
      ((groups.foldl
        (fun acc g => cbProcess lib vuln fixed (groupLastBefore ft g.2) acc) c).locked_out_edges =
        c.locked_out_edges +
          (groups.filter (fun g => groupLockedB lib vuln fixed ft g.2)).length)
  | [], c => by simp
  | g :: gs, c => by
    rw [List.foldl_cons, List.filter_cons, List.filter_cons]
    obtain ⟨h1, h2⟩ := foldl_cbProcess_counts lib vuln fixed ft gs
      (cbProcess lib vuln fixed (groupLastBefore ft g.2) c)
    obtain ⟨p1, p2⟩ := cbProcess_counts lib vuln fixed ft g.2 c
    constructor
    · rw [h1, p1]
      by_cases haff : groupAffectedB lib vuln ft g.2 = true
      · simp [haff]
        omega
      · simp [haff]
    · rw [h2, p2]
      by_cases hlk : groupLockedB lib vuln fixed ft g.2 = true
      · simp [hlk]
        omega
      · simp [hlk]

/-- C6: the constraint-break analyzer classifies each downstream crate from
its single latest requirement observation strictly before the fix timestamp
(a crate with no such observation contributes nothing): over a history that
is grouped by crate (adjacent groups differently named, each group
time-ordered), the affected count is exactly the number of crates whose
latest pre-fix requirement parses and matches a vulnerable version, and the
locked-out count exactly those that additionally match no fixed version
(e.g. an exact pin `=1.0.0` on a vulnerable 1.0.0 with no fixed version
1.0.0, as in the witness). -/
theorem constraint_breakdown_per_crate {V R : Type} (lib : SemverLib V R) (ft : Int)
    (vuln fixed : List V) (groups : List (String × List DownstreamVersionInfo))
    (hg : ∀ g ∈ groups, g.2 ≠ [] ∧ ∀ r ∈ g.2, r.crate_name = g.1)
    (hadj : List.Chain' (fun a b => a.1 ≠ b.1) groups)
    (hsorted : ∀ g ∈ groups, List.Chain' (fun a b => a.created_at ≤ b.created_at) g.2) :
    (compute_constraint_breakdown lib ft vuln fixed
        ((groups.map Prod.snd).flatten)).affected_edges =
      (groups.filter (fun g => groupAffectedB lib vuln ft g.2)).length ∧
    (compute_constraint_breakdown lib ft vuln fixed
        ((groups.map Prod.snd).flatten)).locked_out_edges =
      (groups.filter (fun g => groupLockedB lib vuln fixed ft g.2)).length := by
  have hloop := cbLoop_groups lib vuln fixed ft groups none none emptyCB hg hadj
    (by cases groups <;> rfl)
  have hbase : cbProcess lib vuln fixed none emptyCB = emptyCB := rfl
  rw [hbase] at hloop
  obtain ⟨hcnt1, hcnt2⟩ := foldl_cbProcess_counts lib vuln fixed ft groups emptyCB
  have h1 : (compute_constraint_breakdown lib ft vuln fixed
      ((groups.map Prod.snd).flatten)).affected_edges =
      (cbLoop lib vuln fixed ft ((groups.map Prod.snd).flatten) none none
        emptyCB).affected_edges := by
    unfold compute_constraint_breakdown
    dsimp only
    split_ifs <;> rfl
  have h2 : (compute_constraint_breakdown lib ft vuln fixed
      ((groups.map Prod.snd).flatten)).locked_out_edges =
      (cbLoop lib vuln fixed ft ((groups.map Prod.snd).flatten) none none
        emptyCB).locked_out_edges := by
    unfold compute_constraint_breakdown
    dsimp only
    split_ifs <;> rfl
  constructor
  · rw [h1, hloop, hcnt1]
    simp [emptyCB]
  · rw [h2, hloop, hcnt2]
    simp [emptyCB]

theorem constraint_breakdown_per_crate_witness :
    (∀ g ∈ witGroups, g.2 ≠ [] ∧ ∀ r ∈ g.2, r.crate_name = g.1) ∧
    List.Chain' (fun a b => a.1 ≠ b.1) witGroups ∧
    (∀ g ∈ witGroups, List.Chain' (fun a b => a.created_at ≤ b.created_at) g.2) ∧
    ((compute_constraint_breakdown witLib 0 [100] [101]
        ((witGroups.map Prod.snd).flatten)).affected_edges =
      (witGroups.filter (fun g => groupAffectedB witLib [100] 0 g.2)).length ∧
     (compute_constraint_breakdown witLib 0 [100] [101]
        ((witGroups.map Prod.snd).flatten)).locked_out_edges =
      (witGroups.filter (fun g => groupLockedB witLib [100] [101] 0 g.2)).length) ∧
    (compute_constraint_breakdown witLib 0 [100] [101]
        ((witGroups.map Prod.snd).flatten)).affected_edges = 1 ∧
    (compute_constraint_breakdown witLib 0 [100] [101]
        ((witGroups.map Prod.snd).flatten)).locked_out_edges = 1 :=
  ⟨by decide, List.chain'_singleton _,
    by
      intro g hg
      rcases List.mem_singleton.mp hg with rfl
      exact List.chain'_singleton _,
    constraint_breakdown_per_crate witLib 0 [100] [101] witGroups
      (by decide) (List.chain'_singleton _)
      (by
        intro g hg
        rcases List.mem_singleton.mp hg with rfl
        exact List.chain'_singleton _),
    by decide, by decide⟩

theorem propRun_empty_queue {V R : Type} [LinearOrder V] (lib : SemverLib V R)
    (hist : String → List DownstreamVersionInfo) (maxHops : Option Nat) :
    ∀ (n : Nat) (st : PropState V), st.queue = [] → propRun lib hist maxHops n st = st
  | 0, st, _ => rfl
  | n + 1, st, h => by
    rw [propRun, if_pos (Or.inl h)]

theorem seedStep_hop1_inv {V R : Type} [LinearOrder V] (lib : SemverLib V R)
    (st : PropState V) (r : StrictLagRow V)
    (h : st.queue = [] ∧ ∀ e ∈ st.events, e.hop = 1) :
    (seedStep lib (some 1) st r).queue = [] ∧
      ∀ e ∈ (seedStep lib (some 1) st r).events, e.hop = 1 := by
  obtain ⟨hq, he⟩ := h
  unfold seedStep
  split_ifs with herr hmis hcet
  · exact ⟨hq, he⟩
  · exact ⟨hq, he⟩
  · exact absurd hcet (by decide)
  · refine ⟨hq, ?_⟩
    intro e hev
    rcases List.mem_append.mp hev with hev | hev
    · exact he e hev
    · rcases List.mem_singleton.mp hev with rfl
      rfl

theorem seedFold_hop1_inv {V R : Type} [LinearOrder V] (lib : SemverLib V R) :
    ∀ (rows : List (StrictLagRow V)) (st : PropState V),
      (st.queue = [] ∧ ∀ e ∈ st.events, e.hop = 1) →
      ((rows.foldl (seedStep lib (some 1)) st).queue = [] ∧
        ∀ e ∈ (rows.foldl (seedStep lib (some 1)) st).events, e.hop = 1)
  | [], st, h => h
  | r :: rows, st, h => by
    rw [List.foldl_cons]
    exact seedFold_hop1_inv lib rows _ (seedStep_hop1_inv lib st r h)

/-- C4: with a configured hop limit, a popped carrier whose hop is at or
past the limit is dropped without expansion (the queue shrinks and nothing
else changes); in particular with hop limit 1 no carrier is ever expanded,
so a strict-seeded run emits only hop-1 adoption events. -/
theorem hop_limit_drops_and_hop1_only {V R : Type} [LinearOrder V] (lib : SemverLib V R)
    (hist : String → List DownstreamVersionInfo) :
    (∀ (hopLimit : Nat) (st : PropState V) (carrier : Carrier V) (rest : List (Carrier V)),
      st.queue = carrier :: rest → hopLimit ≤ carrier.hop →
      propStep lib hist (some hopLimit) st = { st with queue := rest }) ∧
    (∀ (rows : List (StrictLagRow V)) (fuel : Nat),
      ∀ e ∈ (runPropagation lib hist (some 1) rows fuel).events, e.hop = 1) := by
  constructor
  · intro hopLimit st carrier rest hq hhop
    have hreach : hopLimitReached (some hopLimit) carrier.hop = true := decide_eq_true hhop
    rw [propStep, hq]
    dsimp only
    rw [hreach]
    simp
  · intro rows fuel e hev
    obtain ⟨hq, he⟩ := seedFold_hop1_inv lib rows (initPropState V) ⟨rfl, by simp [initPropState]⟩
    rw [runPropagation, seedFromStrictRows, propRun_empty_queue lib hist (some 1) fuel _ hq] at hev
    exact he e hev

theorem hop_limit_drops_and_hop1_only_witness :
    (witPropSt.queue = (⟨"x", 100, 0, 1⟩ : Carrier Nat) :: [] ∧
      1 ≤ (⟨"x", 100, 0, 1⟩ : Carrier Nat).hop ∧
      propStep witLib witHist (some 1) witPropSt = { witPropSt with queue := [] }) ∧
    ((⟨1, "d", 864000, 10, "^1.0.1"⟩ : PropEventRec) ∈
        (runPropagation witLib witHist (some 1) [witRow] 5).events ∧
      (⟨1, "d", 864000, 10, "^1.0.1"⟩ : PropEventRec).hop = 1) :=
  ⟨⟨rfl, by decide,
    (hop_limit_drops_and_hop1_only witLib witHist).1 1 witPropSt ⟨"x", 100, 0, 1⟩ [] rfl
      (by decide)⟩,
   ⟨by decide,
    (hop_limit_drops_and_hop1_only witLib witHist).2 [witRow] 5 ⟨1, "d", 864000, 10, "^1.0.1"⟩
      (by decide)⟩⟩

theorem lexLtHT_trans {a b c : Nat × Int} (h1 : lexLtHT a b) (h2 : lexLtHT b c) :
    lexLtHT a c := by
  rcases h1 with h1 | ⟨h1, h1'⟩ <;> rcases h2 with h2 | ⟨h2, h2'⟩
  · exact Or.inl (lt_trans h1 h2)
  · exact Or.inl (h2 ▸ h1)
  · exact Or.inl (h1 ▸ h2)
  · exact Or.inr ⟨h1.trans h2, lt_trans h1' h2'⟩

theorem pushesFor_append (key : String) (log : List (String × Nat × Int))
    (e : String × Nat × Int) :
    pushesFor key (log ++ [e]) =
      pushesFor key log ++ (if e.1 = key then [e.2] else []) := by
  unfold pushesFor
  rw [List.filter_append, List.map_append]
  congr 1
  by_cases h : e.1 = key
  · simp [h]
  · simp [h]

theorem lookup_insertBS :
    ∀ (bs : List (String × Nat × Int)) (key : String) (r : Nat × Int) (k2 : String),
      lookupBS (insertBS bs key r) k2 = if k2 = key then some r else lookupBS bs k2
  | [], key, r, k2 => by
    by_cases h : k2 = key
    · subst h; simp [insertBS, lookupBS]
    · have h' : ¬(key = k2) := fun hh => h hh.symm
      simp [insertBS, lookupBS, h, h']
  | (k1, r1) :: rest, key, r, k2 => by
    by_cases h1 : k1 = key
    · subst h1
      by_cases h2 : k2 = k1
      · subst h2; simp [insertBS, lookupBS]
      · have h2' : ¬(k1 = k2) := fun hh => h2 hh.symm
        simp [insertBS, lookupBS, h2, h2']
    · by_cases h2 : k2 = k1
      · subst h2
        simp [insertBS, lookupBS, h1]
    
      · have h2' : ¬(k1 = k2) := fun hh => h2 hh.symm
        simp [insertBS, lookupBS, h1, h2, h2', lookup_insertBS rest key r k2]

theorem pairwise_last_least {l : List (Nat × Int)} {x : Nat × Int}
    (hp : l.Pairwise (fun a b => lexLtHT b a)) (hl : l.getLast? = some x) :
    ∀ a ∈ l, a = x ∨ lexLtHT x a := by
  induction l with
  | nil => cases hl
  | cons y ys ih =>
    rw [List.pairwise_cons] at hp
    obtain ⟨hy, hp'⟩ := hp
    cases ys with
    | nil =>
      have hx : y = x := by
        simpa using hl
      intro a ha
      rcases List.mem_singleton.mp ha with rfl
      exact Or.inl hx
    | cons z zs =>
      rw [List.getLast?_cons_cons] at hl
      have hxmem : x ∈ z :: zs := List.mem_of_mem_getLast? hl
      intro a ha
      rcases List.mem_cons.mp ha with rfl | ha
      · exact Or.inr (hy x hxmem)
      · exact ih hp' hl a ha

theorem pushCarrier_inv {V : Type} (st : PropState V) (key : String) (v : V) (t : Int)
    (hop : Nat) (hinv : bsLogInv st) (hgood : goodPushLog st.pushLog)
    (hadm : lookupBS st.best_seen key = none ∨
      ∃ r, lookupBS st.best_seen key = some r ∧ lexLtHT (hop, t) r) :
    bsLogInv (pushCarrier st key v t hop) ∧
      goodPushLog (pushCarrier st key v t hop).pushLog := by
  constructor
  · intro k
    show lookupBS (insertBS st.best_seen key (hop, t)) k =
      (pushesFor k (st.pushLog ++ [(key, hop, t)])).getLast?
    rw [lookup_insertBS, pushesFor_append]
    by_cases hk : k = key
    · subst hk
      rw [if_pos rfl]
      have hcond : (((k, hop, t) : String × Nat × Int).1 = k) := rfl
      rw [if_pos hcond, List.getLast?_concat]
    · rw [if_neg hk]
      have hne : ¬(((key, hop, t) : String × Nat × Int).1 = k) := fun hh => hk hh.symm
      rw [if_neg hne, List.append_nil]
      exact hinv k
  · intro k
    show (pushesFor k (st.pushLog ++ [(key, hop, t)])).Pairwise _
    rw [pushesFor_append]
    by_cases hk : ((key, hop, t) : String × Nat × Int).1 = k
    · rw [if_pos hk]
      rw [List.pairwise_append]
      refine ⟨hgood k, List.pairwise_singleton _ _, ?_⟩
      intro a ha b hb
      rcases List.mem_singleton.mp hb with rfl
      have hkk : k = key := hk.symm
      subst hkk
      rcases hadm with hnone | ⟨r, hr, hlt⟩
      · rw [hinv k] at hnone
        rw [List.getLast?_eq_none_iff.mp hnone] at ha
        cases ha
      · rw [hinv k] at hr
        rcases pairwise_last_least (hgood k) hr a ha with rfl | hlt2
        · exact hlt
        · exact lexLtHT_trans hlt hlt2
    · rw [if_neg hk, List.append_nil]
      exact hgood k

theorem shouldPush_admissible (bs : List (String × Nat × Int)) (key : String)
    (nh : Nat) (t : Int) (h : shouldPush bs key nh t = true) :
    lookupBS bs key = none ∨ ∃ r, lookupBS bs key = some r ∧ lexLtHT (nh, t) r := by
  unfold shouldPush at h
  cases hl : lookupBS bs key with
  | none => exact Or.inl rfl
  | some r =>
    rw [hl] at h
    obtain ⟨sh, stt⟩ := r
    refine Or.inr ⟨(sh, stt), rfl, ?_⟩
    rcases (Bool.or_eq_true _ _).mp h with h1 | h1
    · exact Or.inl (of_decide_eq_true h1)
    · obtain ⟨ha, hb⟩ := (Bool.and_eq_true _ _).mp h1
      exact Or.inr ⟨of_decide_eq_true ha, of_decide_eq_true hb⟩

theorem propExpand_inv {V : Type} [LinearOrder V] (mh : Option Nat) (ft : Int) (nh : Nat) :
    ∀ (evs : List (AdoptionEvent V)) (st : PropState V),
      bsLogInv st → goodPushLog st.pushLog →
      bsLogInv (propExpand mh ft nh evs st) ∧
        goodPushLog (propExpand mh ft nh evs st).pushLog
  | [], st, h1, h2 => ⟨h1, h2⟩
  | ev :: rest, st, h1, h2 => by
    rw [propExpand]
    dsimp only
    split_ifs with hmis hce hsp
    · exact ⟨h1, h2⟩
    · refine propExpand_inv mh ft nh rest _ ?_ ?_
      · exact (pushCarrier_inv _ ev.downstream_crate ev.downstream_version
          ev.downstream_time nh h1 h2 (shouldPush_admissible _ _ _ _ hsp)).1
      · exact (pushCarrier_inv _ ev.downstream_crate ev.downstream_version
          ev.downstream_time nh h1 h2 (shouldPush_admissible _ _ _ _ hsp)).2
    · exact propExpand_inv mh ft nh rest _ h1 h2
    · exact propExpand_inv mh ft nh rest _ h1 h2

theorem propStep_inv {V R : Type} [LinearOrder V] (lib : SemverLib V R)
    (hist : String → List DownstreamVersionInfo) (mh : Option Nat) (st : PropState V)
    (h1 : bsLogInv st) (h2 : goodPushLog st.pushLog) :
    bsLogInv (propStep lib hist mh st) ∧ goodPushLog (propStep lib hist mh st).pushLog := by
  rw [propStep]
  cases hq : st.queue with
  | nil => exact ⟨h1, h2⟩
  | cons carrier rest =>
    dsimp only
    split_ifs with hr he
    · exact ⟨h1, h2⟩
    · exact ⟨h1, h2⟩
    · exact propExpand_inv mh carrier.fix_time (carrier.hop + 1) _ _ h1 h2

theorem propRun_inv {V R : Type} [LinearOrder V] (lib : SemverLib V R)
    (hist : String → List DownstreamVersionInfo) (mh : Option Nat) :
    ∀ (n : Nat) (st : PropState V),
      bsLogInv st → goodPushLog st.pushLog →
      bsLogInv (propRun lib hist mh n st) ∧ goodPushLog (propRun lib hist mh n st).pushLog
  | 0, st, h1, h2 => ⟨h1, h2⟩
  | n + 1, st, h1, h2 => by
    rw [propRun]
    split_ifs with hstop
    · exact ⟨h1, h2⟩
    · obtain ⟨s1, s2⟩ := propStep_inv lib hist mh st h1 h2
      exact propRun_inv lib hist mh n _ s1 s2

theorem seedStep_inv {V R : Type} [LinearOrder V] (lib : SemverLib V R) (mh : Option Nat)
    (st : PropState V) (r : StrictLagRow V) (h1 : bsLogInv st) (h2 : goodPushLog st.pushLog)
    (hfresh : pushesFor r.downstream_crate st.pushLog = []) :
    bsLogInv (seedStep lib mh st r) ∧ goodPushLog (seedStep lib mh st r).pushLog ∧
      ∀ k, k ≠ r.downstream_crate →
        pushesFor k (seedStep lib mh st r).pushLog = pushesFor k st.pushLog := by
  unfold seedStep
  split_ifs with herr hmis hce
  · exact ⟨h1, h2, fun k _ => rfl⟩
  · exact ⟨h1, h2, fun k _ => rfl⟩
  · cases hp : lib.parseVersion r.downstream_version with
    | none => exact ⟨h1, h2, fun k _ => rfl⟩
    | some v =>
      have hadm : lookupBS st.best_seen r.downstream_crate = none ∨
          ∃ rec, lookupBS st.best_seen r.downstream_crate = some rec ∧
            lexLtHT (1, r.downstream_time) rec := by
        left
        rw [h1 r.downstream_crate, hfresh]
        rfl
      obtain ⟨p1, p2⟩ := pushCarrier_inv
        ({ st with events := st.events ++
          [⟨1, r.downstream_crate, r.downstream_time, r.lag_days, r.fixed_req⟩] })
        r.downstream_crate v r.downstream_time 1 h1 h2 hadm
      refine ⟨p1, p2, ?_⟩
      intro k hk
      show pushesFor k (st.pushLog ++ [(r.downstream_crate, 1, r.downstream_time)]) = _
      rw [pushesFor_append]
      have hne : ¬(((r.downstream_crate, 1, r.downstream_time) :
          String × Nat × Int).1 = k) := fun hh => hk hh.symm
      rw [if_neg hne, List.append_nil]
  · exact ⟨h1, h2, fun k _ => rfl⟩

theorem seedFold_inv {V R : Type} [LinearOrder V] (lib : SemverLib V R) (mh : Option Nat) :
    ∀ (rows : List (StrictLagRow V)) (st : PropState V),
      bsLogInv st → goodPushLog st.pushLog →
      (∀ r ∈ rows, pushesFor r.downstream_crate st.pushLog = []) →
      (rows.map (·.downstream_crate)).Nodup →
      bsLogInv (rows.foldl (seedStep lib mh) st) ∧
        goodPushLog (rows.foldl (seedStep lib mh) st).pushLog
  | [], st, h1, h2, _, _ => ⟨h1, h2⟩
  | r :: rows, st, h1, h2, hfresh, hnd => by
    rw [List.foldl_cons]
    rw [List.map_cons, List.nodup_cons] at hnd
    obtain ⟨hnotin, hnd'⟩ := hnd
    obtain ⟨s1, s2, sframe⟩ := seedStep_inv lib mh st r h1 h2
      (hfresh r (List.mem_cons_self _ _))
    refine seedFold_inv lib mh rows _ s1 s2 ?_ hnd'
    intro r' hr'
    have hner : r'.downstream_crate ≠ r.downstream_crate := by
      intro hh
      exact hnotin (hh ▸ List.mem_map.mpr ⟨r', hr', rfl⟩)
    rw [sframe r'.downstream_crate hner]
    exact hfresh r' (List.mem_cons_of_mem _ hr')

theorem lexLtNN_trans {a b c : Nat × Nat} (h1 : lexLtNN a b) (h2 : lexLtNN b c) :
    lexLtNN a c := by
  rcases h1 with h1 | ⟨h1, h1'⟩ <;> rcases h2 with h2 | ⟨h2, h2'⟩
  · exact Or.inl (lt_trans h1 h2)
  · exact Or.inl (h2 ▸ h1)
  · exact Or.inl (h1 ▸ h2)
  · exact Or.inr ⟨h1.trans h2, lt_trans h1' h2'⟩

theorem rankHT_lt (T : Finset Int) (a b : Nat × Int) (hlt : lexLtHT a b)
    (haT : a.2 ∈ T) : rankHT T a < rankHT T b := by
  unfold rankHT
  rcases hlt with h | ⟨heq, h⟩
  · have h1 : (T.filter (fun t => t < a.2)).card ≤ T.card := Finset.card_filter_le _ _
    have h2 : (a.1 + 1) * (T.card + 1) ≤ b.1 * (T.card + 1) :=
      Nat.mul_le_mul_right _ (Nat.succ_le_of_lt h)
    have h3 : (a.1 + 1) * (T.card + 1) = a.1 * (T.card + 1) + (T.card + 1) := by ring
    omega
  · have hsub : T.filter (fun t => t < a.2) ⊆ T.filter (fun t => t < b.2) := by
      intro x hx
      rw [Finset.mem_filter] at hx ⊢
      exact ⟨hx.1, lt_trans hx.2 h⟩
    have hss : T.filter (fun t => t < a.2) ⊂ T.filter (fun t => t < b.2) := by
      rw [Finset.ssubset_iff_of_subset hsub]
      refine ⟨a.2, ?_, ?_⟩
      · rw [Finset.mem_filter]
        exact ⟨haT, h⟩
      · rw [Finset.mem_filter]
        rintro ⟨_, hc⟩
        exact absurd hc (lt_irrefl _)
    have h4 := Finset.card_lt_card hss
    rw [heq]
    omega

theorem pushCarrier_measure {V : Type} (K : Finset String) (T : Finset Int)
    (st : PropState V) (key : String) (v : V) (t : Int) (hop : Nat)
    (hkey : key ∈ K) (ht : t ∈ T)
    (hadm : lookupBS st.best_seen key = none ∨
      ∃ r, lookupBS st.best_seen key = some r ∧ lexLtHT (hop, t) r) :
    lexLtNN
      (measUnrecorded K (pushCarrier st key v t hop),
        measRank K T (pushCarrier st key v t hop))
      (measUnrecorded K st, measRank K T st) := by
  rcases hadm with hnone | ⟨r, hsome, hlt⟩
  · left
    show (K.filter (fun k => lookupBS (insertBS st.best_seen key (hop, t)) k = none)).card <
      (K.filter (fun k => lookupBS st.best_seen k = none)).card
    apply Finset.card_lt_card
    have hsub : K.filter (fun k => lookupBS (insertBS st.best_seen key (hop, t)) k = none) ⊆
        K.filter (fun k => lookupBS st.best_seen k = none) := by
      intro k hk
      rw [Finset.mem_filter] at hk ⊢
      obtain ⟨hk1, hk2⟩ := hk
      rw [lookup_insertBS] at hk2
      by_cases hkk : k = key
      · rw [if_pos hkk] at hk2
        cases hk2
      · rw [if_neg hkk] at hk2
        exact ⟨hk1, hk2⟩
    rw [Finset.ssubset_iff_of_subset hsub]
    refine ⟨key, ?_, ?_⟩
    · rw [Finset.mem_filter]
      exact ⟨hkey, hnone⟩
    · rw [Finset.mem_filter]
      rintro ⟨_, hc⟩
      rw [lookup_insertBS, if_pos rfl] at hc
      cases hc
  · right
    constructor
    · show (K.filter (fun k => lookupBS (insertBS st.best_seen key (hop, t)) k = none)).card =
        (K.filter (fun k => lookupBS st.best_seen k = none)).card
      congr 1
      apply Finset.filter_congr
      intro k _
      rw [lookup_insertBS]
      by_cases hkk : k = key
      · subst hkk
        rw [if_pos rfl, hsome]
        simp
      · rw [if_neg hkk]
    · unfold measRank
      have hbs : (pushCarrier st key v t hop).best_seen =
          insertBS st.best_seen key (hop, t) := rfl
      rw [hbs]
      apply Finset.sum_lt_sum
      · intro i hi
        rw [lookup_insertBS]
        by_cases hik : i = key
        · subst hik
          rw [if_pos rfl, hsome]
          exact le_of_lt (rankHT_lt T (hop, t) r hlt ht)
        · rw [if_neg hik]
      · refine ⟨key, hkey, ?_⟩
        rw [lookup_insertBS, if_pos rfl, hsome]
        exact rankHT_lt T (hop, t) r hlt ht

theorem adoption_event_source {V R : Type} [LinearOrder V] (lib : SemverLib V R)
    (fv : V) (ft : Int) (ds : List DownstreamVersionInfo) (ev : AdoptionEvent V)
    (hev : ev ∈ compute_adoption_events_for_target lib fv ft ds) :
    ∃ r ∈ ds, ev.downstream_crate = r.crate_name ∧ ev.downstream_time = r.created_at := by
  obtain ⟨g, hg, hfg⟩ := List.mem_filterMap.mp hev
  obtain ⟨_, item, v, hfind, hparse, hshape⟩ :=
    adoptionEventForGroup_shape lib fv ft g ev hfg
  have hitem : item ∈ sortObs g.2 := List.mem_of_find?_eq_some hfind
  have hitem2 : item ∈ g.2 := (sortObs_perm _).mem_iff.mp hitem
  obtain ⟨hkey, hg2⟩ := (groupByCrate_mem_iff ds g).mp hg
  rw [hg2] at hitem2
  have hitemds : item ∈ ds := List.mem_of_mem_filter hitem2
  have hitemname : item.crate_name = g.1 := eq_of_beq (List.mem_filter.mp hitem2).2
  refine ⟨item, hitemds, ?_, ?_⟩
  · rw [hshape]
    exact hitemname.symm
  · rw [hshape]

theorem adoption_events_lag {V R : Type} [LinearOrder V] (lib : SemverLib V R)
    (fv : V) (ft : Int) (ds : List DownstreamVersionInfo) (ev : AdoptionEvent V)
    (hev : ev ∈ compute_adoption_events_for_target lib fv ft ds) :
    ev.lag_days = num_days (ev.downstream_time - ft) := by
  obtain ⟨g, hg, hfg⟩ := List.mem_filterMap.mp hev
  obtain ⟨_, item, v, hfind, hparse, hshape⟩ :=
    adoptionEventForGroup_shape lib fv ft g ev hfg
  rw [hshape]

theorem propExpand_error {V : Type} [LinearOrder V] (mh : Option Nat) (ft : Int) (nh : Nat) :
    ∀ (evs : List (AdoptionEvent V)) (st : PropState V),
      (∀ ev ∈ evs, ev.lag_days = num_days (ev.downstream_time - ft)) →
      (propExpand mh ft nh evs st).error = st.error
  | [], st, _ => rfl
  | ev :: rest, st, hlag => by
    rw [propExpand]
    dsimp only
    split_ifs with hmis hce hsp
    · exact absurd (hlag ev (List.mem_cons_self _ _)).symm hmis
    · exact propExpand_error mh ft nh rest _
        (fun e he => hlag e (List.mem_cons_of_mem _ he))
    · exact propExpand_error mh ft nh rest _
        (fun e he => hlag e (List.mem_cons_of_mem _ he))
    · exact propExpand_error mh ft nh rest _
        (fun e he => hlag e (List.mem_cons_of_mem _ he))

theorem propStep_error {V R : Type} [LinearOrder V] (lib : SemverLib V R)
    (hist : String → List DownstreamVersionInfo) (mh : Option Nat) (st : PropState V) :
    (propStep lib hist mh st).error = st.error := by
  rw [propStep]
  cases hq : st.queue with
  | nil => rfl
  | cons carrier rest =>
    dsimp only
    split_ifs with hr he
    · rfl
    · rfl
    · exact propExpand_error mh carrier.fix_time (carrier.hop + 1) _ _
        (fun ev hev => adoption_events_lag lib carrier.fix_version carrier.fix_time
          (hist carrier.crate_name) ev hev)

theorem propExpand_measure {V : Type} [LinearOrder V] (K : Finset String) (T : Finset Int)
    (mh : Option Nat) (ft : Int) (nh : Nat) :
    ∀ (evs : List (AdoptionEvent V)) (st : PropState V),
      (∀ ev ∈ evs, ev.downstream_crate ∈ K ∧ ev.downstream_time ∈ T) →
      ((propExpand mh ft nh evs st).best_seen = st.best_seen ∧
        (propExpand mh ft nh evs st).queue = st.queue) ∨
      lexLtNN
        (measUnrecorded K (propExpand mh ft nh evs st),
          measRank K T (propExpand mh ft nh evs st))
        (measUnrecorded K st, measRank K T st)
  | [], st, _ => Or.inl ⟨rfl, rfl⟩
  | ev :: rest, st, hev => by
    rw [propExpand]
    dsimp only
    split_ifs with hmis hce hsp
    · exact Or.inl ⟨rfl, rfl⟩
    · right
      have hadm := shouldPush_admissible st.best_seen ev.downstream_crate nh
        ev.downstream_time hsp
      obtain ⟨hk, ht⟩ := hev ev (List.mem_cons_self _ _)
      have hpush := pushCarrier_measure K T
        ({ st with events := st.events ++
          [⟨nh, ev.downstream_crate, ev.downstream_time, ev.lag_days, ev.dep_req⟩] })
        ev.downstream_crate ev.downstream_version ev.downstream_time nh hk ht hadm
      rcases propExpand_measure K T mh ft nh rest
        (pushCarrier
          ({ st with events := st.events ++
            [⟨nh, ev.downstream_crate, ev.downstream_time, ev.lag_days, ev.dep_req⟩] })
          ev.downstream_crate ev.downstream_version ev.downstream_time nh)
        (fun e he => hev e (List.mem_cons_of_mem _ he)) with hsame | hlt2
      · obtain ⟨hbs, _⟩ := hsame
        have hm1 : measUnrecorded K (propExpand mh ft nh rest
            (pushCarrier
              ({ st with events := st.events ++
                [⟨nh, ev.downstream_crate, ev.downstream_time, ev.lag_days, ev.dep_req⟩] })
              ev.downstream_crate ev.downstream_version ev.downstream_time nh)) =
            measUnrecorded K (pushCarrier
              ({ st with events := st.events ++
                [⟨nh, ev.downstream_crate, ev.downstream_time, ev.lag_days, ev.dep_req⟩] })
              ev.downstream_crate ev.downstream_version ev.downstream_time nh) := by
          unfold measUnrecorded
          rw [hbs]
        have hm2 : measRank K T (propExpand mh ft nh rest
            (pushCarrier
              ({ st with events := st.events ++
                [⟨nh, ev.downstream_crate, ev.downstream_time, ev.lag_days, ev.dep_req⟩] })
              ev.downstream_crate ev.downstream_version ev.downstream_time nh)) =
            measRank K T (pushCarrier
              ({ st with events := st.events ++
                [⟨nh, ev.downstream_crate, ev.downstream_time, ev.lag_days, ev.dep_req⟩] })
              ev.downstream_crate ev.downstream_version ev.downstream_time nh) := by
          unfold measRank
          rw [hbs]
        rw [hm1, hm2]
        exact hpush
      · exact lexLtNN_trans hlt2 hpush
    · rcases propExpand_measure K T mh ft nh rest
        ({ st with events := st.events ++
          [⟨nh, ev.downstream_crate, ev.downstream_time, ev.lag_days, ev.dep_req⟩] })
        (fun e he => hev e (List.mem_cons_of_mem _ he)) with hsame | hlt2
      · exact Or.inl hsame
      · exact Or.inr hlt2
    · rcases propExpand_measure K T mh ft nh rest
        ({ st with events := st.events ++
          [⟨nh, ev.downstream_crate, ev.downstream_time, ev.lag_days, ev.dep_req⟩] })
        (fun e he => hev e (List.mem_cons_of_mem _ he)) with hsame | hlt2
      · exact Or.inl hsame
      · exact Or.inr hlt2

theorem propStep_measure {V R : Type} [LinearOrder V] (lib : SemverLib V R)
    (hist : String → List DownstreamVersionInfo) (mh : Option Nat)
    (K : Finset String) (T : Finset Int)
    (hK : ∀ k, ∀ o ∈ hist k, o.crate_name ∈ K)
    (hT : ∀ k, ∀ o ∈ hist k, o.created_at ∈ T)
    (st : PropState V) (hq : st.queue ≠ []) :
    lexLtNN
      (measUnrecorded K (propStep lib hist mh st), measRank K T (propStep lib hist mh st))
      (measUnrecorded K st, measRank K T st) ∨
    ((measUnrecorded K (propStep lib hist mh st) = measUnrecorded K st ∧
      measRank K T (propStep lib hist mh st) = measRank K T st) ∧
      (propStep lib hist mh st).queue.length < st.queue.length) := by
  rw [propStep]
  cases hqq : st.queue with
  | nil => exact absurd hqq hq
  | cons carrier rest =>
    dsimp only
    split_ifs with hr he
    · right
      refine ⟨⟨rfl, rfl⟩, ?_⟩
      simp
    · right
      refine ⟨⟨rfl, rfl⟩, ?_⟩
      simp
    · have hevsrc : ∀ ev ∈ compute_adoption_events_for_target lib carrier.fix_version
          carrier.fix_time (hist carrier.crate_name),
          ev.downstream_crate ∈ K ∧ ev.downstream_time ∈ T := by
        intro ev hev
        obtain ⟨r, hrmem, hc, ht⟩ := adoption_event_source lib carrier.fix_version
          carrier.fix_time (hist carrier.crate_name) ev hev
        exact ⟨hc ▸ hK carrier.crate_name r hrmem, ht ▸ hT carrier.crate_name r hrmem⟩
      rcases propExpand_measure K T mh carrier.fix_time (carrier.hop + 1)
        (compute_adoption_events_for_target lib carrier.fix_version carrier.fix_time
          (hist carrier.crate_name))
        ({ st with queue := rest }) hevsrc with ⟨hbs, hqe⟩ | hlt
      · right
        constructor
        · constructor
          · unfold measUnrecorded
            rw [hbs]
          · unfold measRank
            rw [hbs]
        · rw [hqe]
          simp
      · exact Or.inl hlt

theorem lex3_strong_ind (P : Nat → Nat → Nat → Prop)
    (step : ∀ a b c,
      (∀ a2 b2 c2, (a2 < a ∨ (a2 = a ∧ (b2 < b ∨ (b2 = b ∧ c2 < c)))) → P a2 b2 c2) →
      P a b c) :
    ∀ a b c, P a b c := by
  intro a
  induction a using Nat.strong_induction_on with
  | _ a ihA =>
    intro b
    induction b using Nat.strong_induction_on with
    | _ b ihB =>
      intro c
      induction c using Nat.strong_induction_on with
      | _ c ihC =>
        apply step
        intro a2 b2 c2 hrel
        rcases hrel with h | ⟨rfl, h⟩
        · exact ihA a2 h b2 c2
        · rcases h with h | ⟨rfl, h⟩
          · exact ihB b2 h c2
          · exact ihC c2 h

theorem propRun_terminates {V R : Type} [LinearOrder V] (lib : SemverLib V R)
    (hist : String → List DownstreamVersionInfo) (mh : Option Nat)
    (K : Finset String) (T : Finset Int)
    (hK : ∀ k, ∀ o ∈ hist k, o.crate_name ∈ K)
    (hT : ∀ k, ∀ o ∈ hist k, o.created_at ∈ T) :
    ∀ st : PropState V, st.error = false →
      ∃ n, (propRun lib hist mh n st).queue = [] := by
  have main : ∀ a b c, ∀ st : PropState V,
      measUnrecorded K st = a → measRank K T st = b → st.queue.length = c →
      st.error = false → ∃ n, (propRun lib hist mh n st).queue = [] := by
    apply lex3_strong_ind
      (P := fun a b c => ∀ st : PropState V,
        measUnrecorded K st = a → measRank K T st = b → st.queue.length = c →
        st.error = false → ∃ n, (propRun lib hist mh n st).queue = [])
    intro a b c ih st ha hb hc herr
    by_cases hq : st.queue = []
    · exact ⟨0, hq⟩
    · have herr2 : (propStep lib hist mh st).error = false :=
        (propStep_error lib hist mh st).trans herr
      have hrunstep : ∀ n, propRun lib hist mh (n + 1) st =
          propRun lib hist mh n (propStep lib hist mh st) := by
        intro n
        rw [propRun, if_neg (by simp [hq, herr])]
      rcases propStep_measure lib hist mh K T hK hT st hq with hlt | ⟨⟨he1, he2⟩, hlen⟩
      · rcases hlt with h | ⟨heq, h⟩
        · obtain ⟨n, hn⟩ := ih (measUnrecorded K (propStep lib hist mh st))
            (measRank K T (propStep lib hist mh st))
            (propStep lib hist mh st).queue.length
            (Or.inl (ha ▸ h)) (propStep lib hist mh st) rfl rfl rfl herr2
          exact ⟨n + 1, (hrunstep n) ▸ hn⟩
        · obtain ⟨n, hn⟩ := ih (measUnrecorded K (propStep lib hist mh st))
            (measRank K T (propStep lib hist mh st))
            (propStep lib hist mh st).queue.length
            (Or.inr ⟨ha ▸ heq, Or.inl (hb ▸ h)⟩) (propStep lib hist mh st) rfl rfl rfl herr2
          exact ⟨n + 1, (hrunstep n) ▸ hn⟩
      · obtain ⟨n, hn⟩ := ih (measUnrecorded K (propStep lib hist mh st))
          (measRank K T (propStep lib hist mh st))
          (propStep lib hist mh st).queue.length
          (Or.inr ⟨ha ▸ he1, Or.inr ⟨hb ▸ he2, hc ▸ hlen⟩⟩)
          (propStep lib hist mh st) rfl rfl rfl herr2
        exact ⟨n + 1, (hrunstep n) ▸ hn⟩
  intro st herr
  exact main (measUnrecorded K st) (measRank K T st) st.queue.length st rfl rfl rfl herr

theorem seedStep_error {V R : Type} [LinearOrder V] (lib : SemverLib V R) (mh : Option Nat)
    (st : PropState V) (r : StrictLagRow V)
    (hr : r.lag_days = num_days (r.downstream_time - r.matched_fix_time))
    (herr : st.error = false) : (seedStep lib mh st r).error = false := by
  unfold seedStep
  split_ifs with h1 h2 h3
  · exact herr
  · exact absurd hr.symm h2
  · cases lib.parseVersion r.downstream_version with
    | none => exact herr
    | some v => exact herr
  · exact herr

theorem seedFold_error {V R : Type} [LinearOrder V] (lib : SemverLib V R) (mh : Option Nat) :
    ∀ (rows : List (StrictLagRow V)) (st : PropState V),
      (∀ r ∈ rows, r.lag_days = num_days (r.downstream_time - r.matched_fix_time)) →
      st.error = false → (rows.foldl (seedStep lib mh) st).error = false
  | [], st, _, herr => herr
  | r :: rows, st, hr, herr => by
    rw [List.foldl_cons]
    exact seedFold_error lib mh rows _ (fun r2 h2 => hr r2 (List.mem_cons_of_mem _ h2))
      (seedStep_error lib mh st r (hr r (List.mem_cons_self _ _)) herr)

/-- C3: in a strict-seeded propagation run, a crate is enqueued as a carrier
only strictly better than every earlier enqueue of that crate — smaller hop,
or equal hop with strictly earlier adoption time (so never twice at the same
or a worse `(hop, time)` than an existing `best_seen` record); and when the
downstream snapshot's crate names and publish times lie in finite universes
`K` and `T`, the loop empties its queue after finitely many iterations, even
when the dependency graph has cycles. The seed rows satisfy the recomputed
lag check (as `compute_strict_lags_for_target` outputs do) and name distinct
crates (at most one strict row per crate). -/
theorem propagation_admission_and_termination {V R : Type} [LinearOrder V]
    (lib : SemverLib V R) (hist : String → List DownstreamVersionInfo)
    (maxHops : Option Nat) (rows : List (StrictLagRow V))
    (K : Finset String) (T : Finset Int)
    (hnd : (rows.map (·.downstream_crate)).Nodup)
    (hrows : ∀ r ∈ rows, r.lag_days = num_days (r.downstream_time - r.matched_fix_time))
    (hK : ∀ k, ∀ o ∈ hist k, o.crate_name ∈ K)
    (hT : ∀ k, ∀ o ∈ hist k, o.created_at ∈ T) :
    (∀ fuel, goodPushLog (runPropagation lib hist maxHops rows fuel).pushLog) ∧
    (∃ n, (runPropagation lib hist maxHops rows n).queue = []) := by
  have hseed := seedFold_inv lib maxHops rows (initPropState V)
    (fun k => rfl) (fun k => List.Pairwise.nil) (fun r _ => rfl) hnd
  constructor
  · intro fuel
    exact (propRun_inv lib hist maxHops fuel (seedFromStrictRows lib maxHops rows)
      hseed.1 hseed.2).2
  · have herr : (seedFromStrictRows lib maxHops rows).error = false :=
      seedFold_error lib maxHops rows (initPropState V) hrows rfl
    exact propRun_terminates lib hist maxHops K T hK hT
      (seedFromStrictRows lib maxHops rows) herr

theorem propagation_admission_and_termination_witness :
    (([witRow].map (·.downstream_crate)).Nodup) ∧
    (∀ r ∈ [witRow], r.lag_days = num_days (r.downstream_time - r.matched_fix_time)) ∧
    (∀ k, ∀ o ∈ witHist k, o.crate_name ∈ ({"d"} : Finset String)) ∧
    (∀ k, ∀ o ∈ witHist k, o.created_at ∈ ({-432000, 864000} : Finset Int)) ∧
    ((∀ fuel, goodPushLog (runPropagation witLib witHist none [witRow] fuel).pushLog) ∧
      (∃ n, (runPropagation witLib witHist none [witRow] n).queue = [])) := by
  have hK : ∀ k, ∀ o ∈ witHist k, o.crate_name ∈ ({"d"} : Finset String) := by
    intro k o ho
    unfold witHist at ho
    by_cases hk : k = "d"
    · rw [if_pos hk] at ho
      simp only [witDS, List.mem_cons, List.not_mem_nil, or_false] at ho
      rcases ho with rfl | rfl <;> decide
    · rw [if_neg hk] at ho
      cases ho
  have hT : ∀ k, ∀ o ∈ witHist k, o.created_at ∈ ({-432000, 864000} : Finset Int) := by
    intro k o ho
    unfold witHist at ho
    by_cases hk : k = "d"
    · rw [if_pos hk] at ho
      simp only [witDS, List.mem_cons, List.not_mem_nil, or_false] at ho
      rcases ho with rfl | rfl <;> decide
    · rw [if_neg hk] at ho
      cases ho
  exact ⟨by decide, by decide, hK, hT,
    propagation_admission_and_termination witLib witHist none [witRow]
      {"d"} {-432000, 864000} (by decide) (by decide) hK hT⟩
